import Mathlib

/-!
# Verification of the CSV parsing and aggregation pipeline of `script.js`

This file is a shallow embedding of the core logic of the sales-summary
single-page application (`src/script.js`): the CSV parser (`parseCSV` and its
inner `parseLine`), the row normaliser (`coerceRow`), the currency-rate lookup
(`getRate`), and the aggregation pass of `render` (grand total and per-product
subtotals), together with the observable control flow of `init`.

Strings are embedded as `List Char`; JavaScript numbers are embedded as exact
rationals (`ℚ`), with the special values NaN and ±Infinity made explicit in the
inductive `JSNum` where the code can observe them (`parseFloat`, `Number`).
JavaScript objects (string-keyed, insertion-ordered, last-write-wins) are
embedded as association lists with an in-place update (`objInsert`).
-/

namespace SalesApp

/-! ## JavaScript string primitives -/

/-- The ECMAScript WhiteSpace and LineTerminator code points recognised by
`String.prototype.trim` (notably including the byte-order mark U+FEFF). -/
def jsWhitespaceChars : List Char :=
  ['\t', '\n', '\x0B', '\x0C', '\r', ' ', '\u00A0', '\u1680',
   '\u2000', '\u2001', '\u2002', '\u2003', '\u2004', '\u2005', '\u2006',
   '\u2007', '\u2008', '\u2009', '\u200A', '\u2028', '\u2029', '\u202F',
   '\u205F', '\u3000', '\uFEFF']

def jsWhitespace (c : Char) : Bool := jsWhitespaceChars.contains c

/-- `String.prototype.trim`: drop recognised whitespace from both ends. -/
def jsTrim (l : List Char) : List Char :=
  ((l.dropWhile jsWhitespace).reverse.dropWhile jsWhitespace).reverse

/-- `String.prototype.toLowerCase`, at the ASCII fidelity the claims need. -/
def lowerStr (s : List Char) : List Char := s.map Char.toLower

/-- `text.replace(/\r\n?/g, "\n")` from `parseCSV` (line 62): every CRLF pair
and every bare CR becomes a single LF. -/
def normCRLF : List Char → List Char
  | [] => []
  | [c] => if c = '\r' then ['\n'] else [c]
  | c :: d :: rest =>
    if c = '\r' then
      if d = '\n' then '\n' :: normCRLF rest
      else '\n' :: normCRLF (d :: rest)
    else c :: normCRLF (d :: rest)

/-- `String.prototype.split` with a single-character separator: always returns
at least one (possibly empty) part. -/
def splitOnChar (sep : Char) : List Char → List (List Char)
  | [] => [[]]
  | c :: rest =>
    match splitOnChar sep rest with
    | [] => [[]]
    | f :: fs => if c = sep then [] :: f :: fs else (c :: f) :: fs

/-! ## JavaScript objects as insertion-ordered association lists -/

/-- Property assignment `o[k] = v`: update in place if the key exists
(keeping its position), otherwise append. -/
def objInsert {α : Type} : List (List Char × α) → List Char → α → List (List Char × α)
  | [], k, v => [(k, v)]
  | kv :: rest, k, v =>
    if kv.1 = k then (kv.1, v) :: rest else kv :: objInsert rest k v

/-- Property read `o[k]`: `none` plays the role of `undefined`. -/
def lookupObj {α : Type} : List (List Char × α) → List Char → Option α
  | [], _ => none
  | kv :: rest, key => if kv.1 = key then some kv.2 else lookupObj rest key

/-- A parsed row object: header name ↦ cell text. -/
abbrev Obj := List (List Char × List Char)

/-! ## The CSV parser (`parseCSV`, lines 60–115) -/

/-- The scan of `parseLine` (lines 65–95): `inQ` is the `inQuotes` flag and
`cur` the field accumulated so far.  Inside quotes a doubled `"` is an escaped
literal quote, a single `"` leaves quoted mode; outside quotes `,` ends the
field and `"` enters quoted mode.  The final `fields.push(cur)` is the
base case. -/
def parseLineAux (inQ : Bool) (cur : List Char) : List Char → List (List Char)
  | [] => [cur]
  | [c] =>
    -- the loop's final iteration, written out so the recursion is structural:
    -- a lone character can never start an escaped-quote pair
    if inQ then
      if c = '"' then [cur] else [cur ++ [c]]
    else
      if c = ',' then [cur, []]
      else if c = '"' then [cur]
      else [cur ++ [c]]
  | c :: d :: rest =>
    if inQ then
      if c = '"' then
        if d = '"' then parseLineAux true (cur ++ ['"']) rest
        else parseLineAux false cur (d :: rest)
      else parseLineAux true (cur ++ [c]) (d :: rest)
    else
      if c = ',' then cur :: parseLineAux false [] (d :: rest)
      else if c = '"' then parseLineAux true cur (d :: rest)
      else parseLineAux false (cur ++ [c]) (d :: rest)

def parseLine (l : List Char) : List (List Char) := parseLineAux false [] l

/-- The `for (let j = 0; ...)` loop of lines 109–111: walk the headers, pairing
each with the corresponding column, `""` when the row is short
(`cols[j] != null ? cols[j] : ""`).  Extra columns beyond the headers are
dropped because the loop is bounded by `headers.length`. -/
def mkObjAux (obj : Obj) : List (List Char) → List (List Char) → Obj
  | [], _ => obj
  | h :: hs, [] => mkObjAux (objInsert obj h []) hs []
  | h :: hs, c :: cs => mkObjAux (objInsert obj h c) hs cs

def mkObj (headers cols : List (List Char)) : Obj := mkObjAux [] headers cols

structure ParseResult where
  headers : List (List Char)
  rows : List Obj
deriving DecidableEq

/-- `parseCSV` (lines 60–115): normalise line endings, split on `\n`, skip
blank leading lines, trim the header cells, then turn each non-blank data line
into a header-keyed object.  (The `!lines.length` guard of line 63 is
subsumed by the empty `dropWhile` result: `split` never returns an empty
array.) -/
def parseCSV (text : List Char) : ParseResult :=
  let lines := splitOnChar '\n' (normCRLF text)
  match lines.dropWhile (fun l => (jsTrim l).isEmpty) with
  | [] => ⟨[], []⟩
  | headerLine :: dataLines =>
    let headers := (parseLine headerLine).map jsTrim
    ⟨headers,
     (dataLines.filter (fun l => !(l.isEmpty || (jsTrim l).isEmpty))).map
       (fun l => mkObj headers (parseLine l))⟩

/-! ## JavaScript numbers: `parseFloat` and the sales coercion -/

/-- A JavaScript number as the pipeline can observe it: NaN, ±Infinity, or a
finite value (embedded exactly as a rational). -/
inductive JSNum where
  | nan
  | posInf
  | negInf
  | fin (q : ℚ)
deriving DecidableEq

def digitsToNat (l : List Char) : ℕ :=
  l.foldl (fun a c => 10 * a + (c.toNat - 48)) 0

/-- The mantissa of `parseFloat`: digits, an optional point, digits; `none`
when no digit is found (which `parseFloat` reports as NaN).  Returns the value
together with the unconsumed rest of the input. -/
def parseUnsigned (l : List Char) : Option (ℚ × List Char) :=
  let int := l.takeWhile Char.isDigit
  let rest := l.dropWhile Char.isDigit
  match rest with
  | '.' :: rest2 =>
    let frac := rest2.takeWhile Char.isDigit
    let rest3 := rest2.dropWhile Char.isDigit
    if int.isEmpty && frac.isEmpty then none
    else some ((digitsToNat int : ℚ) + (digitsToNat frac : ℚ) / (10 : ℚ) ^ frac.length, rest3)
  | _ => if int.isEmpty then none else some ((digitsToNat int : ℚ), rest)

/-- The exponent part of `parseFloat` as a multiplicative factor: `e`/`E`, an
optional sign, digits; an incomplete exponent contributes nothing
(factor `1`). -/
def parseExpFactor (l : List Char) : ℚ :=
  match l with
  | 'e' :: rest | 'E' :: rest =>
    let (neg, r2) : Bool × List Char :=
      match rest with
      | '+' :: r => (false, r)
      | '-' :: r => (true, r)
      | r => (false, r)
    let ds := r2.takeWhile Char.isDigit
    if ds.isEmpty then 1
    else if neg then 1 / (10 : ℚ) ^ digitsToNat ds
    else (10 : ℚ) ^ digitsToNat ds
  | _ => 1

/-- The optional sign at the front of a `parseFloat` input: whether it is a
minus, and the text after the sign. -/
def splitSign : List Char → Bool × List Char
  | [] => (false, [])
  | c :: r =>
    if c = '-' then (true, r)
    else if c = '+' then (false, r)
    else (false, c :: r)

/-- `parseFloat`, exact reading: skip leading whitespace, read an optional
sign, recognise the `Infinity` literal, else read a decimal mantissa and an
optional exponent; NaN when no numeric prefix exists.  This computes the exact
decimal value; the real `parseFloat` then rounds it to an IEEE binary64
double, which overflows to ±Infinity for magnitudes ≥ 2^1024 — that final
rounding step is `roundDouble` below, and the composition is
`jsParseFloatD`. -/
def jsParseFloat (s0 : List Char) : JSNum :=
  let s1 := s0.dropWhile jsWhitespace
  let neg := (splitSign s1).1
  let s2 := (splitSign s1).2
  if s2.take 8 = "Infinity".toList then
    if neg then JSNum.negInf else JSNum.posInf
  else
    match parseUnsigned s2 with
    | none => JSNum.nan
    | some (m, rest) =>
      let v := m * parseExpFactor rest
      JSNum.fin (if neg then -v else v)

/-- The character class kept by `String(rawSales).replace(/[^0-9.\-]/g, "")`
on line 124: digits, the decimal point and the minus sign. -/
def isNumChar (c : Char) : Bool := c.isDigit || c = '.' || c = '-'

/-- `x || 0` applied to a number: NaN (and ±0) become `0`, everything else is
kept — note that an infinite value would be kept, not zeroed. -/
def jsOrZero : JSNum → JSNum
  | JSNum.nan => JSNum.fin 0
  | JSNum.posInf => JSNum.posInf
  | JSNum.negInf => JSNum.negInf
  | JSNum.fin q => JSNum.fin q

/-- The sales coercion of line 124 on a (string) cell:
`parseFloat(String(raw).replace(/[^0-9.\-]/g, "")) || 0`, as a `JSNum`. -/
def salesJS (raw : List Char) : JSNum :=
  jsOrZero (jsParseFloat (raw.filter isNumChar))

/-- The same coercion read back into the exact-rational embedding.  In the
exact reading the non-finite branches are unreachable (`salesJS_exact_fin`:
the character strip makes the `Infinity` literal impossible), so mapping them
to `0` only affects dead code of the exact model.  Under real IEEE semantics
`parseFloat` can overflow a ≥ 310-digit cell to Infinity and `|| 0` keeps it
— that divergence from the spec is established separately on the binary64
model (`C6_overflow_divergence`); this ℚ-valued field is the exact reading
used by the other claims. -/
def salesQ (raw : List Char) : ℚ :=
  match salesJS raw with
  | JSNum.fin q => q
  | JSNum.nan => 0
  | JSNum.posInf => 0
  | JSNum.negInf => 0

/-! ## The row normaliser (`coerceRow`, lines 117–126) -/

structure RecordR where
  product : List Char
  region : List Char
  sales : ℚ
deriving DecidableEq

/-- The lowercased-key map built on line 120:
`for (const k of Object.keys(row)) map[k.toLowerCase()] = row[k]`. -/
def buildLowerMap (row : Obj) : Obj :=
  row.foldl (fun m kv => objInsert m (lowerStr kv.1) kv.2) []

/-- JavaScript truthiness of a possibly-`undefined` string, as used by `||`:
`undefined` and the empty string are falsy. -/
def truthyOpt : Option (List Char) → Option (List Char)
  | some v => if v.isEmpty then none else some v
  | none => none

/-- The `map["sales"] ?? map["amount"] ?? map["total"] ?? "0"` chain of
line 123 — nullish coalescing, so a present-but-empty cell is used as-is. -/
def rawSalesOf (m : Obj) : List Char :=
  ((lookupObj m "sales".toList <|> lookupObj m "amount".toList) <|>
    lookupObj m "total".toList).getD "0".toList

/-- `coerceRow` (lines 117–126).  `product` and `region` use `||`, so an empty
cell falls through to the next alias; `sales` uses `??` (see `rawSalesOf`).
The `typeof rawSales === "number"` branch of line 124 is dead in this
pipeline: every value produced by `parseCSV` is a string. -/
def coerceRow (row : Obj) : RecordR :=
  let m := buildLowerMap row
  { product :=
      ((truthyOpt (lookupObj m "product".toList) <|>
        truthyOpt (lookupObj m "item".toList)) <|>
        truthyOpt (lookupObj m "name".toList)).getD "Unknown".toList
    region :=
      (truthyOpt (lookupObj m "region".toList) <|>
        truthyOpt (lookupObj m "area".toList)).getD []
    sales := salesQ (rawSalesOf m) }

/-! ## Currency rates (`getRate`, lines 128–131) -/

/-- A rate table: currency code ↦ `Number(value)` of the stored JSON value
(so a non-numeric entry appears as `JSNum.nan`). -/
abbrev RateTable := List (List Char × JSNum)

/-- `getRate` (lines 128–131): `Number.isFinite(r) && r > 0 ? r : 1`, with
`r = NaN` when the code is not a property of the table. -/
def getRate (rates : RateTable) (code : List Char) : ℚ :=
  match lookupObj rates code with
  | some (JSNum.fin q) => if 0 < q then q else 1
  | _ => 1

/-! ## Aggregation (`render`, lines 205–245)

Two readings of the summation are embedded.  `totalRaw`/`byProductStep` below
add in exact rationals: this is the ideal-arithmetic reading of the reduce
loop, the subject of C1's amended claim.  The program itself adds IEEE
binary64 doubles, which round; `totalRawD`/`byProductStepD` further down
embed that faithfully via `addDouble`, and C1's counterexample lives there. -/

/-- `getFilteredRows` (lines 186–189): the sentinel `"all"` keeps every record,
any other selection keeps exact (case-sensitive) region matches. -/
def getFilteredRows (rows : List RecordR) (selectedRegion : List Char) : List RecordR :=
  if selectedRegion = "all".toList then rows
  else rows.filter (fun r => r.region = selectedRegion)

/-- The unconverted grand total of line 210,
`filtered.reduce((acc, r) => acc + r.sales, 0)`, with exact addition
(ideal-arithmetic reading; the program's double addition is `totalRawD`). -/
def totalRaw (rows : List RecordR) : ℚ :=
  rows.foldl (fun acc r => acc + r.sales) 0

/-- One step of the per-product grouping of lines 223–227,
`byProduct.set(key, (byProduct.get(key) || 0) + r.sales)` with
`key = r.product || "Unknown"`, with exact addition (ideal-arithmetic
reading; the program's double addition is `byProductStepD`). -/
def byProductStep (m : List (List Char × ℚ)) (r : RecordR) : List (List Char × ℚ) :=
  let key := if r.product.isEmpty then "Unknown".toList else r.product
  objInsert m key (((lookupObj m key).getD 0) + r.sales)

/-- The per-product subtotal map (unconverted values), in insertion order as a
JavaScript `Map` keeps them. -/
def byProduct (rows : List RecordR) : List (List Char × ℚ) :=
  rows.foldl byProductStep []

/-- The sum of the per-product subtotals. -/
def sumValues (m : List (List Char × ℚ)) : ℚ := (m.map Prod.snd).sum

/-! ## IEEE binary64 semantics

JavaScript numbers are IEEE-754 binary64 doubles.  A finite double is carried
as its exact rational value inside `JSNum.fin`; `roundDouble` is the IEEE
round-to-nearest-ties-to-even conversion of an exact rational to a double
(with gradual underflow below 2^-1022 and overflow to ±Infinity at 2^1024),
and `addDouble` is double addition: the exact sum, correctly rounded. -/

/-- Round an exact rational to the nearest integer, ties to even. -/
def rne (x : ℚ) : ℤ :=
  let f := ⌊x⌋
  let r := x - f
  if r < 1 / 2 then f
  else if 1 / 2 < r then f + 1
  else if f % 2 = 0 then f else f + 1

/-- Correct rounding of an exact rational to an IEEE binary64 double: scale
into the 53-bit window (clamped at the subnormal exponent −1074), round the
scaled value to the nearest integer mantissa (ties to even), and overflow to
±Infinity when the rounded magnitude reaches 2^1024. -/
def roundDouble (q : ℚ) : JSNum :=
  if q = 0 then JSNum.fin 0
  else
    let e : ℤ := max (-1074) (Int.log 2 |q| - 52)
    let m : ℤ := rne (q * (2 : ℚ) ^ (-e))
    if (2 : ℚ) ^ (1024 : ℤ) ≤ |(m : ℚ)| * (2 : ℚ) ^ e then
      (if 0 < q then JSNum.posInf else JSNum.negInf)
    else JSNum.fin ((m : ℚ) * (2 : ℚ) ^ e)

/-- IEEE double addition `x + y`: NaN propagates, opposite infinities give
NaN, a single infinity dominates, and finite operands are summed exactly and
correctly rounded. -/
def addDouble : JSNum → JSNum → JSNum
  | JSNum.nan, _ => JSNum.nan
  | _, JSNum.nan => JSNum.nan
  | JSNum.posInf, JSNum.negInf => JSNum.nan
  | JSNum.negInf, JSNum.posInf => JSNum.nan
  | JSNum.posInf, _ => JSNum.posInf
  | _, JSNum.posInf => JSNum.posInf
  | JSNum.negInf, _ => JSNum.negInf
  | _, JSNum.negInf => JSNum.negInf
  | JSNum.fin a, JSNum.fin b => roundDouble (a + b)

/-- `parseFloat` as the program runs it: the exact decimal value of the
numeric prefix (`jsParseFloat`), correctly rounded to a binary64 double —
so a digit string of magnitude ≥ 2^1024 yields ±Infinity. -/
def jsParseFloatD (s : List Char) : JSNum :=
  match jsParseFloat s with
  | JSNum.fin q => roundDouble q
  | JSNum.nan => JSNum.nan
  | JSNum.posInf => JSNum.posInf
  | JSNum.negInf => JSNum.negInf

/-- The sales coercion of line 124 under real IEEE semantics:
`parseFloat(String(raw).replace(/[^0-9.\-]/g, "")) || 0` — note `|| 0` zeroes
NaN but keeps ±Infinity, which is truthy. -/
def salesJSD (raw : List Char) : JSNum :=
  jsOrZero (jsParseFloatD (raw.filter isNumChar))

/-- A record as the program holds it: `sales` is a double. -/
structure RecordD where
  product : List Char
  region : List Char
  sales : JSNum
deriving DecidableEq

/-- `getFilteredRows` over double-valued records. -/
def getFilteredRowsD (rows : List RecordD) (selectedRegion : List Char) : List RecordD :=
  if selectedRegion = "all".toList then rows
  else rows.filter (fun r => r.region = selectedRegion)

/-- The grand total of line 210 with the program's double addition:
`filtered.reduce((acc, r) => acc + r.sales, 0)`. -/
def totalRawD (rows : List RecordD) : JSNum :=
  rows.foldl (fun acc r => addDouble acc r.sales) (JSNum.fin 0)

/-- One step of the per-product grouping of lines 223–227 with double
addition: `(byProduct.get(key) || 0) + r.sales` (a missing key reads as
`undefined`, and `undefined || 0` is `0`). -/
def byProductStepD (m : List (List Char × JSNum)) (r : RecordD) :
    List (List Char × JSNum) :=
  let key := if r.product.isEmpty then "Unknown".toList else r.product
  objInsert m key (addDouble (jsOrZero ((lookupObj m key).getD (JSNum.fin 0))) r.sales)

/-- The per-product subtotal map with double addition. -/
def byProductD (rows : List RecordD) : List (List Char × JSNum) :=
  rows.foldl byProductStepD []

/-- The sum of the per-product subtotal doubles, added as doubles (as the
page's own checker sums the rendered column). -/
def sumValuesD (m : List (List Char × JSNum)) : JSNum :=
  (m.map Prod.snd).foldl addDouble (JSNum.fin 0)

/-! ## The `init` control flow (lines 247–277) -/

/-- The user-observable steps of `init` once the two fetches have resolved:
status messages and the render call.  DOM wiring and the network layer are
outside the core. -/
inductive UIEvent where
  | status (msg : String) (kind : String)
  | render
deriving DecidableEq

/-- `init` (lines 247–277) after a successful fetch of the CSV text: it always
sets the loading status, warns — but only warns — when no rows were parsed,
and then unconditionally builds the controls, renders, and reports success. -/
def initEvents (csvText : List Char) : List UIEvent :=
  let rawRows := (parseCSV csvText).rows.map coerceRow
  [UIEvent.status "Loading sales data..." "info"] ++
  (if rawRows.isEmpty then [UIEvent.status "No rows found in CSV." "warning"] else []) ++
  [UIEvent.render, UIEvent.status "Loaded sales data." "success"]

/-! ## Specification-side definitions

These definitions are written from the spec's vocabulary (aliases resolved in
priority order, duplicate columns, bad rate entries) and are compared with the
code-side definitions above by the theorems below. -/

/-- The row as positionally zipped header/cell pairs, cells padded with `""`
(no deduplication of header names). -/
def objOf : List (List Char) → List (List Char) → Obj
  | [], _ => []
  | h :: hs, [] => (h, []) :: objOf hs []
  | h :: hs, c :: cs => (h, c) :: objOf hs cs

/-- The value of the last pair whose key equals `key` (rightmost wins). -/
def lastMatch? {α : Type} : List (List Char × α) → List Char → Option α
  | [], _ => none
  | kv :: rest, key => (lastMatch? rest key) <|> (if kv.1 = key then some kv.2 else none)

/-- The last element satisfying `p`. -/
def lastSuch {α : Type} (p : α → Bool) : List α → Option α
  | [] => none
  | x :: xs => (lastSuch p xs) <|> (if p x then some x else none)

/-- Append a key unless it is already present (property-creation order). -/
def addKey (ks : List (List Char)) (k : List Char) : List (List Char) :=
  if k ∈ ks then ks else ks ++ [k]

/-- Header spellings in order of first occurrence. -/
def firstOccurrences (hdrs : List (List Char)) : List (List Char) :=
  hdrs.foldl addKey []

/-- The value the normaliser's lowercased map resolves for `key`: among the
header spellings that lowercase to `key`, the spelling whose first occurrence
is latest wins, and within that spelling the rightmost column's value. -/
def resolvedValue (hdrs cells : List (List Char)) (key : List Char) : Option (List Char) :=
  (lastSuch (fun h => lowerStr h = key) (firstOccurrences hdrs)).bind
    (fun k => lastMatch? (objOf hdrs cells) k)

/-- The cell of the first column whose header matches `a` case-insensitively
(`none` when no header matches). -/
def aliasCell (hdrs cells : List (List Char)) (a : List Char) : Option (List Char) :=
  ((objOf hdrs cells).find? (fun kv => lowerStr kv.1 = a)).map Prod.snd

/-- `product` per the amended claim: first alias among
`product`, `item`, `name` whose cell is non-empty, else `"Unknown"`. -/
def specProduct (hdrs cells : List (List Char)) : List Char :=
  ((truthyOpt (aliasCell hdrs cells "product".toList) <|>
    truthyOpt (aliasCell hdrs cells "item".toList)) <|>
    truthyOpt (aliasCell hdrs cells "name".toList)).getD "Unknown".toList

/-- `region` per the amended claim: first alias among `region`, `area` whose
cell is non-empty, else `""`. -/
def specRegion (hdrs cells : List (List Char)) : List Char :=
  (truthyOpt (aliasCell hdrs cells "region".toList) <|>
    truthyOpt (aliasCell hdrs cells "area".toList)).getD []

/-- The raw sales cell per the amended claim: first alias among `sales`,
`amount`, `total` whose header is present — even with an empty cell — else
`"0"`. -/
def specRawSales (hdrs cells : List (List Char)) : List Char :=
  ((aliasCell hdrs cells "sales".toList <|> aliasCell hdrs cells "amount".toList) <|>
    aliasCell hdrs cells "total".toList).getD "0".toList

/-- A rate-table entry that the spec calls bad: missing, non-numeric
(NaN after `Number(...)`), non-finite, or not greater than zero. -/
def isBadEntry : Option JSNum → Bool
  | some (JSNum.fin q) => decide (q ≤ 0)
  | _ => true

/-! ## General lemmas about the aggregation pass -/

theorem foldl_add_sales (l : List RecordR) (a : ℚ) :
    l.foldl (fun acc r => acc + r.sales) a = a + (l.map RecordR.sales).sum := by
  induction l generalizing a with
  | nil => simp
  | cons r l ih => simp [List.foldl_cons, ih (a + r.sales), add_assoc]

theorem totalRaw_eq_sum (l : List RecordR) :
    totalRaw l = (l.map RecordR.sales).sum := by
  simpa using foldl_add_sales l 0

theorem lookupObj_objInsert {α : Type} (m : List (List Char × α)) (k : List Char) (v : α)
    (key : List Char) :
    lookupObj (objInsert m k v) key = if k = key then some v else lookupObj m key := by
  induction m with
  | nil => simp [objInsert, lookupObj]
  | cons kv rest ih =>
    obtain ⟨k', v'⟩ := kv
    by_cases h1 : k' = k
    · subst h1
      by_cases h2 : k' = key <;> simp [objInsert, lookupObj, h2]
    · by_cases h2 : k' = key
      · subst h2
        have : ¬ k = k' := fun h => h1 h.symm
        simp [objInsert, lookupObj, h1, this]
      · simp [objInsert, lookupObj, h1, h2, ih]

theorem sumValues_objInsert (m : List (List Char × ℚ)) (k : List Char) (v : ℚ) :
    sumValues (objInsert m k v) = sumValues m - ((lookupObj m k).getD 0) + v := by
  induction m with
  | nil => simp [objInsert, lookupObj, sumValues]
  | cons kv rest ih =>
    obtain ⟨k', v'⟩ := kv
    by_cases h : k' = k
    · subst h
      simp [objInsert, lookupObj, sumValues]
      ring
    · simp [objInsert, lookupObj, h, sumValues] at ih ⊢
      rw [ih]
      ring

theorem sumValues_byProductStep (m : List (List Char × ℚ)) (r : RecordR) :
    sumValues (byProductStep m r) = sumValues m + r.sales := by
  unfold byProductStep
  rw [sumValues_objInsert]
  ring

theorem sumValues_byProduct_fold (l : List RecordR) (m : List (List Char × ℚ)) :
    sumValues (l.foldl byProductStep m) = sumValues m + (l.map RecordR.sales).sum := by
  induction l generalizing m with
  | nil => simp
  | cons r l ih =>
    simp [List.foldl_cons, ih (byProductStep m r), sumValues_byProductStep, add_assoc]

theorem sumValues_byProduct (l : List RecordR) :
    sumValues (byProduct l) = (l.map RecordR.sales).sum := by
  simpa [byProduct, sumValues] using sumValues_byProduct_fold l []

theorem totalRaw_perm {l l' : List RecordR} (h : l.Perm l') : totalRaw l = totalRaw l' := by
  rw [totalRaw_eq_sum, totalRaw_eq_sum]
  exact (h.map RecordR.sales).sum_eq

theorem getFilteredRows_perm {l l' : List RecordR} (region : List Char) (h : l.Perm l') :
    (getFilteredRows l region).Perm (getFilteredRows l' region) := by
  unfold getFilteredRows
  split
  · exact h
  · exact h.filter (fun r => r.region = region)

/-- C1 as amended: in the ideal (exact-arithmetic) reading of the summation
loops, for every list of records and every region-filter selection, the
unconverted grand total equals the sum of the unconverted per-product
subtotals — exactly, hence within the claimed `1e-9` tolerance — and both
quantities are unchanged under any permutation of the input rows.  Under the
program's IEEE double addition the identity can fail beyond any tolerance and
depends on row order: see `C1_counterexample`. -/
theorem C1_total_eq_sum_subtotals (records records2 : List RecordR) (region : List Char)
    (hp : records.Perm records2) :
    sumValues (byProduct (getFilteredRows records region)) =
      totalRaw (getFilteredRows records region) ∧
    |sumValues (byProduct (getFilteredRows records region)) -
      totalRaw (getFilteredRows records region)| ≤ 1 / 1000000000 ∧
    totalRaw (getFilteredRows records region) = totalRaw (getFilteredRows records2 region) ∧
    sumValues (byProduct (getFilteredRows records region)) =
      sumValues (byProduct (getFilteredRows records2 region)) := by
  have key : ∀ l : List RecordR, sumValues (byProduct l) = totalRaw l := fun l => by
    rw [sumValues_byProduct, totalRaw_eq_sum]
  have hperm := getFilteredRows_perm region hp
  refine ⟨key _, ?_, totalRaw_perm hperm, ?_⟩
  · rw [key]
    simp
  · rw [key, key]
    exact totalRaw_perm hperm

/-- Witness for C1 at a concrete pair of records, in swapped orders. -/
theorem C1_witness :
    sumValues (byProduct (getFilteredRows
        [⟨"A".toList, "North".toList, 100⟩, ⟨"B".toList, "South".toList, 50⟩] "all".toList)) =
      totalRaw (getFilteredRows
        [⟨"A".toList, "North".toList, 100⟩, ⟨"B".toList, "South".toList, 50⟩] "all".toList) ∧
    totalRaw (getFilteredRows
        [⟨"A".toList, "North".toList, 100⟩, ⟨"B".toList, "South".toList, 50⟩] "all".toList) =
      totalRaw (getFilteredRows
        [⟨"B".toList, "South".toList, 50⟩, ⟨"A".toList, "North".toList, 100⟩] "all".toList) :=
  ⟨(C1_total_eq_sum_subtotals _ _ _
      (List.Perm.swap ⟨"B".toList, "South".toList, 50⟩ ⟨"A".toList, "North".toList, 100⟩ [])).1,
   (C1_total_eq_sum_subtotals _ _ _
      (List.Perm.swap ⟨"B".toList, "South".toList, 50⟩ ⟨"A".toList, "North".toList, 100⟩ [])).2.2.1⟩

/-- C4: the quoting round-trip examples — an embedded comma inside quotes
stays one cell, and a doubled quote becomes one literal quote — hold of
`parseLine` exactly as the claim states them. -/
theorem C4_quoting_roundtrip :
    parseLine "\"Acme, Inc.\",North,100".toList =
      ["Acme, Inc.".toList, "North".toList, "100".toList] ∧
    parseLine "\"She said \"\"hi\"\"\",East,50".toList =
      ["She said \"hi\"".toList, "East".toList, "50".toList] := by
  constructor <;> decide

/-- C8: the effective currency multiplier is always strictly positive, and a
missing, non-numeric, non-finite or non-positive table entry yields exactly
the identity multiplier `1`. -/
theorem C8_rate_positive_fallback (rates : RateTable) (code : List Char) :
    0 < getRate rates code ∧
    (isBadEntry (lookupObj rates code) = true → getRate rates code = 1) := by
  unfold getRate isBadEntry
  rcases h : lookupObj rates code with _ | v
  · simp
  · rcases v with _ | _ | _ | q
    · simp
    · simp
    · simp
    · by_cases hq : 0 < q
      · refine ⟨by simp [hq], ?_⟩
        intro h0
        simp at h0
        exact absurd hq (not_lt.mpr h0)
      · simp [hq]

/-- Witness for C8: a NaN entry (a non-numeric JSON value after `Number(...)`)
falls back to the identity multiplier. -/
theorem C8_witness :
    0 < getRate [("USD".toList, JSNum.nan)] "USD".toList ∧
    getRate [("USD".toList, JSNum.nan)] "USD".toList = 1 :=
  ⟨(C8_rate_positive_fallback [("USD".toList, JSNum.nan)] "USD".toList).1,
   (C8_rate_positive_fallback [("USD".toList, JSNum.nan)] "USD".toList).2 (by decide)⟩

/-! ## Finiteness of the sales coercion (C6) -/

theorem splitSign_snd_subset (l : List Char) : (splitSign l).2 ⊆ l := by
  rcases l with _ | ⟨c, r⟩
  · simp [splitSign]
  · by_cases h1 : c = '-'
    · simp [splitSign, h1]
    · by_cases h2 : c = '+'
      · simp [splitSign, h1, h2]
      · simp [splitSign, h1, h2]

/-- On any input made only of digits, dots and minus signs — exactly what
survives the `replace(/[^0-9.\-]/g, "")` strip — `parseFloat` is NaN or a
finite value: the `Infinity` literal cannot occur. -/
theorem jsParseFloat_nan_or_fin (s : List Char) (h : ∀ c ∈ s, isNumChar c = true) :
    jsParseFloat s = JSNum.nan ∨ ∃ q : ℚ, jsParseFloat s = JSNum.fin q := by
  unfold jsParseFloat
  have hsub : (splitSign (s.dropWhile jsWhitespace)).2 ⊆ s := fun c hc =>
    (List.dropWhile_sublist jsWhitespace).subset (splitSign_snd_subset _ hc)
  by_cases hInf : (splitSign (s.dropWhile jsWhitespace)).2.take 8 = "Infinity".toList
  · exfalso
    have hI : 'I' ∈ (splitSign (s.dropWhile jsWhitespace)).2.take 8 := by
      rw [hInf]; decide
    have : isNumChar 'I' = true := h 'I' (hsub (List.take_subset 8 _ hI))
    simp [isNumChar] at this
  · simp only [hInf, if_false]
    rcases hp : parseUnsigned (splitSign (s.dropWhile jsWhitespace)).2 with _ | ⟨m, rest⟩
    · left; rfl
    · right; exact ⟨_, rfl⟩

/-- In the exact reading the sales coercion is always finite: the character
strip makes the `Infinity` literal unreachable, so `salesJS` yields
`JSNum.fin q` for some rational `q`, that `q` is exactly the record's `sales`
field, and a NaN parse gives `0`.  Only the IEEE rounding step can produce a
non-finite value, by overflow — see `C6_overflow_divergence`. -/
theorem salesJS_exact_fin (row : Obj) :
    ∃ q : ℚ, salesJS (rawSalesOf (buildLowerMap row)) = JSNum.fin q ∧
      (coerceRow row).sales = q ∧
      (jsParseFloat ((rawSalesOf (buildLowerMap row)).filter isNumChar) = JSNum.nan → q = 0) := by
  have hnum : ∀ c ∈ (rawSalesOf (buildLowerMap row)).filter isNumChar, isNumChar c = true :=
    fun c hc => (List.mem_filter.mp hc).2
  rcases jsParseFloat_nan_or_fin _ hnum with hn | ⟨q, hq⟩
  · refine ⟨0, ?_, ?_, fun _ => rfl⟩
    · simp [salesJS, hn, jsOrZero]
    · simp [coerceRow, salesQ, salesJS, hn, jsOrZero]
  · refine ⟨q, ?_, ?_, ?_⟩
    · simp [salesJS, hq, jsOrZero]
    · simp [coerceRow, salesQ, salesJS, hq, jsOrZero]
    · intro hnan
      rw [hq] at hnan
      exact absurd hnan (by simp)

/-- The unparseable cell `N/A` strips to the empty string, `parseFloat` gives
NaN, and the record's sales field is `0`. -/
theorem salesQ_nan_to_zero : (coerceRow [("sales".toList, "N/A".toList)]).sales = 0 := by
  obtain ⟨q, _, h2, h3⟩ := salesJS_exact_fin [("sales".toList, "N/A".toList)]
  rw [h2, h3 (by decide)]

/-! ## The `init` control flow on empty data (C9) -/

/-- Counterexample to C9: on a header-only CSV the row sequence is empty, yet
`init` still reaches the render/aggregation step — it does not stop after
signalling. -/
theorem C9_counterexample :
    (parseCSV "product,sales".toList).rows = [] ∧
    UIEvent.render ∈ initEvents "product,sales".toList := by
  constructor <;> decide

/-- C9 as amended: when parsing yields zero records, `init` sets the
descriptive warning status `No rows found in CSV.` but does not fail — it
still proceeds to aggregation and renders, with a grand total of `0`. -/
theorem C9_amended (text region : List Char)
    (h : ((parseCSV text).rows.map coerceRow).isEmpty = true) :
    UIEvent.status "No rows found in CSV." "warning" ∈ initEvents text ∧
    UIEvent.render ∈ initEvents text ∧
    totalRaw (getFilteredRows ((parseCSV text).rows.map coerceRow) region) = 0 := by
  have hr : (parseCSV text).rows.map coerceRow = [] := by
    simpa using h
  refine ⟨?_, ?_, ?_⟩
  · simp [initEvents, h]
  · simp [initEvents]
  · rw [hr]
    unfold getFilteredRows
    split <;> simp [totalRaw]

/-- Witness for C9 at the header-only CSV. -/
theorem C9_witness :
    UIEvent.status "No rows found in CSV." "warning" ∈ initEvents "product,sales".toList ∧
    UIEvent.render ∈ initEvents "product,sales".toList ∧
    totalRaw (getFilteredRows ((parseCSV "product,sales".toList).rows.map coerceRow)
      "all".toList) = 0 :=
  C9_amended "product,sales".toList "all".toList (by decide)

/-! ## Structural lemmas about the parser -/

theorem splitOnChar_ne_nil (sep : Char) (l : List Char) : splitOnChar sep l ≠ [] := by
  induction l with
  | nil => simp [splitOnChar]
  | cons c rest ih =>
    rcases h : splitOnChar sep rest with _ | ⟨f, fs⟩
    · exact absurd h ih
    · by_cases hc : c = sep <;> simp [splitOnChar, h, hc]

theorem splitOnChar_mem_spec (sep : Char) (l : List Char) :
    ∀ part ∈ splitOnChar sep l, sep ∉ part ∧ ∀ c ∈ part, c ∈ l := by
  induction l with
  | nil =>
    intro part hp
    simp [splitOnChar] at hp
    simp [hp]
  | cons c rest ih =>
    intro part hp
    rcases h : splitOnChar sep rest with _ | ⟨f, fs⟩
    · exact absurd h (splitOnChar_ne_nil sep rest)
    · simp only [splitOnChar, h] at hp
      by_cases hc : c = sep
      · rw [if_pos hc] at hp
        rcases List.mem_cons.mp hp with hp1 | hp1
        · simp [hp1]
        · have := ih part (h ▸ hp1)
          exact ⟨this.1, fun a ha => List.mem_cons_of_mem _ (this.2 a ha)⟩
      · rw [if_neg hc] at hp
        rcases List.mem_cons.mp hp with hp1 | hp1
        · subst hp1
          have hf := ih f (h ▸ List.mem_cons_self f fs)
          constructor
          · intro hmem
            rcases List.mem_cons.mp hmem with h1 | h1
            · exact hc h1.symm
            · exact hf.1 h1
          · intro a ha
            rcases List.mem_cons.mp ha with h1 | h1
            · simp [h1]
            · exact List.mem_cons_of_mem _ (hf.2 a h1)
        · have := ih part (h ▸ List.mem_cons_of_mem f hp1)
          exact ⟨this.1, fun a ha => List.mem_cons_of_mem _ (this.2 a ha)⟩

theorem normCRLF_chars (l : List Char) : ∀ c ∈ normCRLF l, c ∈ l ∨ c = '\n' := by
  induction l using normCRLF.induct with
  | case1 => simp [normCRLF]
  | case2 =>
    intro a ha
    simp [normCRLF] at ha
    simp [ha]
  | case3 c h =>
    intro a ha
    simp [normCRLF, h] at ha
    simp [ha]
  | case4 rest ih =>
    intro a ha
    rw [normCRLF] at ha
    simp only [if_pos rfl] at ha
    rcases List.mem_cons.mp ha with h1 | h1
    · right; exact h1
    · rcases ih a h1 with h2 | h2
      · left; exact List.mem_cons_of_mem _ (List.mem_cons_of_mem _ h2)
      · right; exact h2
  | case5 d rest h ih =>
    intro a ha
    rw [normCRLF] at ha
    simp only [if_pos rfl, if_neg h] at ha
    rcases List.mem_cons.mp ha with h1 | h1
    · right; exact h1
    · rcases ih a h1 with h2 | h2
      · left; exact List.mem_cons_of_mem _ h2
      · right; exact h2
  | case6 c d rest h ih =>
    intro a ha
    rw [normCRLF] at ha
    simp only [if_neg h] at ha
    rcases List.mem_cons.mp ha with h1 | h1
    · left; simp [h1]
    · rcases ih a h1 with h2 | h2
      · left; exact List.mem_cons_of_mem _ h2
      · right; exact h2

theorem normCRLF_of_no_cr (l : List Char) (h : '\r' ∉ l) : normCRLF l = l := by
  induction l using normCRLF.induct with
  | case1 => rfl
  | case2 => exact absurd (List.mem_singleton.mpr rfl) h
  | case3 c hc => simp [normCRLF, hc]
  | case4 rest ih => exact absurd (List.mem_cons_self _ _) h
  | case5 d rest hd ih => exact absurd (List.mem_cons_self _ _) h
  | case6 c d rest hc ih =>
    rw [normCRLF]
    simp only [if_neg hc]
    rw [ih (fun hm => h (List.mem_cons_of_mem _ hm))]

theorem parseLineAux_ne_nil (inQ : Bool) (cur l : List Char) :
    parseLineAux inQ cur l ≠ [] := by
  induction inQ, cur, l using parseLineAux.induct <;> simp_all [parseLineAux]

theorem parseLineAux_chars (inQ : Bool) (cur l : List Char) :
    ∀ part ∈ parseLineAux inQ cur l, ∀ a ∈ part, a ∈ cur ∨ a ∈ l := by
  induction inQ, cur, l using parseLineAux.induct with
  | case1 inQ cur =>
    intro part hp a ha
    simp [parseLineAux] at hp
    left; exact hp ▸ ha
  | case2 cur =>
    intro part hp a ha
    simp [parseLineAux] at hp
    left; exact hp ▸ ha
  | case3 cur c hc =>
    intro part hp a ha
    simp [parseLineAux, hc] at hp
    rcases List.mem_append.mp (hp ▸ ha) with h | h
    · left; exact h
    · right; exact h
  | case4 inQ cur hq =>
    intro part hp a ha
    simp [parseLineAux, hq] at hp
    rcases hp with hp | hp
    · left; exact hp ▸ ha
    · rw [hp] at ha; simp at ha
  | case5 inQ cur hq _ =>
    intro part hp a ha
    simp [parseLineAux, hq] at hp
    left; exact hp ▸ ha
  | case6 inQ cur c hq hc1 hc2 =>
    intro part hp a ha
    simp [parseLineAux, hq, hc1, hc2] at hp
    rcases List.mem_append.mp (hp ▸ ha) with h | h
    · left; exact h
    · right; exact h
  | case7 cur rest ih =>
    intro part hp a ha
    rw [show parseLineAux true cur ('"' :: '"' :: rest) =
        parseLineAux true (cur ++ ['"']) rest by simp [parseLineAux]] at hp
    rcases ih part hp a ha with h | h
    · rcases List.mem_append.mp h with h1 | h1
      · left; exact h1
      · right; simp at h1; simp [h1]
    · right; exact List.mem_cons_of_mem _ (List.mem_cons_of_mem _ h)
  | case8 cur d rest hd ih =>
    intro part hp a ha
    rw [show parseLineAux true cur ('"' :: d :: rest) =
        parseLineAux false cur (d :: rest) by simp [parseLineAux, hd]] at hp
    rcases ih part hp a ha with h | h
    · left; exact h
    · right; exact List.mem_cons_of_mem _ h
  | case9 cur c d rest hc ih =>
    intro part hp a ha
    rw [show parseLineAux true cur (c :: d :: rest) =
        parseLineAux true (cur ++ [c]) (d :: rest) by simp [parseLineAux, hc]] at hp
    rcases ih part hp a ha with h | h
    · rcases List.mem_append.mp h with h1 | h1
      · left; exact h1
      · right; simp at h1; simp [h1]
    · right; exact List.mem_cons_of_mem _ h
  | case10 inQ cur d rest hq ih =>
    intro part hp a ha
    rw [show parseLineAux inQ cur (',' :: d :: rest) =
        cur :: parseLineAux false [] (d :: rest) by simp [parseLineAux, hq]] at hp
    rcases List.mem_cons.mp hp with hp1 | hp1
    · left; exact hp1 ▸ ha
    · rcases ih part hp1 a ha with h | h
      · simp at h
      · right; exact List.mem_cons_of_mem _ h
  | case11 inQ cur d rest hq _ ih =>
    intro part hp a ha
    rw [show parseLineAux inQ cur ('"' :: d :: rest) =
        parseLineAux true cur (d :: rest) by simp [parseLineAux, hq]] at hp
    rcases ih part hp a ha with h | h
    · left; exact h
    · right; exact List.mem_cons_of_mem _ h
  | case12 inQ cur c d rest hq hc1 hc2 ih =>
    intro part hp a ha
    rw [show parseLineAux inQ cur (c :: d :: rest) =
        parseLineAux false (cur ++ [c]) (d :: rest) by simp [parseLineAux, hq, hc1, hc2]] at hp
    rcases ih part hp a ha with h | h
    · rcases List.mem_append.mp h with h1 | h1
      · left; exact h1
      · right; simp at h1; simp [h1]
    · right; exact List.mem_cons_of_mem _ h

theorem parseLineAux_prepend (inQ : Bool) (cur l p : List Char) :
    parseLineAux inQ (p ++ cur) l =
      (p ++ (parseLineAux inQ cur l).headD []) :: (parseLineAux inQ cur l).tail := by
  induction inQ, cur, l using parseLineAux.induct generalizing p with
  | case1 inQ cur => simp [parseLineAux]
  | case2 cur => simp [parseLineAux]
  | case3 cur c hc => simp [parseLineAux, hc]
  | case4 inQ cur hq => simp [parseLineAux, hq]
  | case5 inQ cur hq _ => simp [parseLineAux, hq]
  | case6 inQ cur c hq hc1 hc2 => simp [parseLineAux, hq, hc1, hc2]
  | case7 cur rest ih =>
    rw [show ∀ cur2, parseLineAux true cur2 ('"' :: '"' :: rest) =
        parseLineAux true (cur2 ++ ['"']) rest from fun _ => by simp [parseLineAux]]
    rw [show ∀ cur2, parseLineAux true cur2 ('"' :: '"' :: rest) =
        parseLineAux true (cur2 ++ ['"']) rest from fun _ => by simp [parseLineAux]]
    rw [List.append_assoc]
    exact ih p
  | case8 cur d rest hd ih =>
    rw [show ∀ cur2, parseLineAux true cur2 ('"' :: d :: rest) =
        parseLineAux false cur2 (d :: rest) from fun _ => by simp [parseLineAux, hd]]
    rw [show ∀ cur2, parseLineAux true cur2 ('"' :: d :: rest) =
        parseLineAux false cur2 (d :: rest) from fun _ => by simp [parseLineAux, hd]]
    exact ih p
  | case9 cur c d rest hc ih =>
    rw [show ∀ cur2, parseLineAux true cur2 (c :: d :: rest) =
        parseLineAux true (cur2 ++ [c]) (d :: rest) from fun _ => by simp [parseLineAux, hc]]
    rw [show ∀ cur2, parseLineAux true cur2 (c :: d :: rest) =
        parseLineAux true (cur2 ++ [c]) (d :: rest) from fun _ => by simp [parseLineAux, hc]]
    rw [List.append_assoc]
    exact ih p
  | case10 inQ cur d rest hq ih =>
    rw [show ∀ cur2 : List Char, parseLineAux inQ cur2 (',' :: d :: rest) =
        cur2 :: parseLineAux false [] (d :: rest) from fun _ => by simp [parseLineAux, hq]]
    rw [show ∀ cur2 : List Char, parseLineAux inQ cur2 (',' :: d :: rest) =
        cur2 :: parseLineAux false [] (d :: rest) from fun _ => by simp [parseLineAux, hq]]
    simp
  | case11 inQ cur d rest hq _ ih =>
    rw [show ∀ cur2, parseLineAux inQ cur2 ('"' :: d :: rest) =
        parseLineAux true cur2 (d :: rest) from fun _ => by simp [parseLineAux, hq]]
    rw [show ∀ cur2, parseLineAux inQ cur2 ('"' :: d :: rest) =
        parseLineAux true cur2 (d :: rest) from fun _ => by simp [parseLineAux, hq]]
    exact ih p
  | case12 inQ cur c d rest hq hc1 hc2 ih =>
    rw [show ∀ cur2, parseLineAux inQ cur2 (c :: d :: rest) =
        parseLineAux false (cur2 ++ [c]) (d :: rest) from fun _ => by
          simp [parseLineAux, hq, hc1, hc2]]
    rw [show ∀ cur2, parseLineAux inQ cur2 (c :: d :: rest) =
        parseLineAux false (cur2 ++ [c]) (d :: rest) from fun _ => by
          simp [parseLineAux, hq, hc1, hc2]]
    rw [List.append_assoc]
    exact ih p

theorem parseLine_chars (l : List Char) :
    ∀ part ∈ parseLine l, ∀ a ∈ part, a ∈ l := by
  intro part hp a ha
  rcases parseLineAux_chars false [] l part hp a ha with h | h
  · simp at h
  · exact h

theorem jsTrim_chars (l : List Char) : ∀ a ∈ jsTrim l, a ∈ l := by
  intro a ha
  unfold jsTrim at ha
  rw [List.mem_reverse] at ha
  have h1 := (List.dropWhile_sublist jsWhitespace).subset ha
  rw [List.mem_reverse] at h1
  exact (List.dropWhile_sublist jsWhitespace).subset h1

theorem jsTrim_eq_nil_iff (l : List Char) :
    jsTrim l = [] ↔ ∀ c ∈ l, jsWhitespace c = true := by
  constructor
  · intro h c hc
    unfold jsTrim at h
    rw [List.reverse_eq_nil_iff, List.dropWhile_eq_nil_iff] at h
    have hdrop : ∀ c ∈ l.dropWhile jsWhitespace, jsWhitespace c = true := by
      intro c hc2
      exact h c (List.mem_reverse.mpr hc2)
    rcases List.mem_append.mp ((List.takeWhile_append_dropWhile (p := jsWhitespace) (l := l)) ▸ hc) with h1 | h1
    · exact List.mem_takeWhile_imp h1
    · exact hdrop c h1
  · intro h
    unfold jsTrim
    rw [List.dropWhile_eq_nil_iff.mpr h]
    simp

theorem jsTrim_cons_ws (c : Char) (l : List Char) (h : jsWhitespace c = true) :
    jsTrim (c :: l) = jsTrim l := by
  unfold jsTrim
  rw [List.dropWhile_cons_of_pos h]

theorem splitOnChar_cons_ne (sep c : Char) (s f : List Char) (fs : List (List Char))
    (hc : ¬ c = sep) (h : splitOnChar sep s = f :: fs) :
    splitOnChar sep (c :: s) = (c :: f) :: fs := by
  simp [splitOnChar, h, hc]

theorem splitOnChar_append (a b : List Char) (ha : '\n' ∉ a) :
    splitOnChar '\n' (a ++ '\n' :: b) = a :: splitOnChar '\n' b := by
  induction a with
  | nil =>
    rcases h : splitOnChar '\n' b with _ | ⟨f, fs⟩
    · exact absurd h (splitOnChar_ne_nil '\n' b)
    · rw [List.nil_append]
      simp [splitOnChar, h]
  | cons c a ih =>
    have hc : ¬ c = '\n' := fun hcc => ha (by simp [hcc])
    have ih2 := ih (fun hm => ha (List.mem_cons_of_mem _ hm))
    rw [List.cons_append]
    exact splitOnChar_cons_ne '\n' c _ a _ hc ih2

theorem splitOnChar_no_sep (sep : Char) (l : List Char) (h : sep ∉ l) :
    splitOnChar sep l = [l] := by
  induction l with
  | nil => rfl
  | cons c rest ih =>
    have hc : ¬ c = sep := fun hcc => h (by simp [hcc])
    exact splitOnChar_cons_ne sep c rest rest [] hc
      (ih (fun hm => h (List.mem_cons_of_mem _ hm)))

theorem objInsert_mem {α : Type} (m : List (List Char × α)) (k : List Char) (v : α) :
    ∀ kv ∈ objInsert m k v, kv ∈ m ∨ kv = (k, v) := by
  induction m with
  | nil => simp [objInsert]
  | cons kv0 rest ih =>
    obtain ⟨k0, v0⟩ := kv0
    intro kv hkv
    by_cases h : k0 = k
    · rw [objInsert, if_pos h] at hkv
      rcases List.mem_cons.mp hkv with h1 | h1
      · right; rw [h1, h]
      · left; exact List.mem_cons_of_mem _ h1
    · rw [objInsert, if_neg h] at hkv
      rcases List.mem_cons.mp hkv with h1 | h1
      · left; simp [h1]
      · rcases ih kv h1 with h2 | h2
        · left; exact List.mem_cons_of_mem _ h2
        · right; exact h2

theorem mkObjAux_mem (hs : List (List Char)) :
    ∀ (cs : List (List Char)) (obj : Obj), ∀ kv ∈ mkObjAux obj hs cs,
      kv ∈ obj ∨ (kv.1 ∈ hs ∧ (kv.2 ∈ cs ∨ kv.2 = [])) := by
  induction hs with
  | nil =>
    intro cs obj kv hkv
    cases cs <;> exact Or.inl hkv
  | cons h hs ih =>
    intro cs obj kv hkv
    rcases cs with _ | ⟨c, cs⟩
    · rw [mkObjAux] at hkv
      rcases ih [] (objInsert obj h []) kv hkv with h1 | h1
      · rcases objInsert_mem obj h [] kv h1 with h2 | h2
        · left; exact h2
        · right
          refine ⟨by simp [h2], Or.inr (by simp [h2])⟩
      · right
        exact ⟨List.mem_cons_of_mem _ h1.1, by simpa using h1.2⟩
    · rw [mkObjAux] at hkv
      rcases ih cs (objInsert obj h c) kv hkv with h1 | h1
      · rcases objInsert_mem obj h c kv h1 with h2 | h2
        · left; exact h2
        · right
          refine ⟨by simp [h2], Or.inl (by simp [h2])⟩
      · right
        rcases h1.2 with h2 | h2
        · exact ⟨List.mem_cons_of_mem _ h1.1, Or.inl (List.mem_cons_of_mem _ h2)⟩
        · exact ⟨List.mem_cons_of_mem _ h1.1, Or.inr h2⟩

theorem mkObj_mem_spec (hs cs : List (List Char)) :
    ∀ kv ∈ mkObj hs cs, kv.1 ∈ hs ∧ (kv.2 ∈ cs ∨ kv.2 = []) := by
  intro kv hkv
  rcases mkObjAux_mem hs cs [] kv hkv with h | h
  · simp at h
  · exact h

/-! ## C2: newlines inside quoted fields -/

/-- Counterexample to C2: parsing `a,"x\ny",b` does not keep the quoted
newline — the text is split at the newline before quote processing, so the
output is the header row `a`, `x` and one data row `{a ↦ "y,b", x ↦ ""}`,
and no header or cell equals the claimed two-line string `x\ny`. -/
theorem C2_counterexample :
    (parseCSV "a,\"x\ny\",b".toList).headers = ["a".toList, "x".toList] ∧
    (parseCSV "a,\"x\ny\",b".toList).rows =
      [[("a".toList, "y,b".toList), ("x".toList, [])]] ∧
    (∀ h ∈ (parseCSV "a,\"x\ny\",b".toList).headers, h ≠ "x\ny".toList) ∧
    (∀ row ∈ (parseCSV "a,\"x\ny\",b".toList).rows, ∀ kv ∈ row, kv.2 ≠ "x\ny".toList) := by
  refine ⟨by decide, by decide, by decide, by decide⟩

/-- C2 as amended: a newline always ends the current row, even while inside
quotes — the parser splits the text at every newline before quote processing,
so no header name and no cell value of any parse ever contains a newline
character. -/
theorem C2_amended (text : List Char) :
    (∀ h ∈ (parseCSV text).headers, '\n' ∉ h) ∧
    (∀ row ∈ (parseCSV text).rows, ∀ kv ∈ row, '\n' ∉ kv.1 ∧ '\n' ∉ kv.2) := by
  have hline : ∀ l ∈ splitOnChar '\n' (normCRLF text), '\n' ∉ l :=
    fun l hl => (splitOnChar_mem_spec '\n' (normCRLF text) l hl).1
  have hdrop := List.dropWhile_sublist
    (fun l => (jsTrim l).isEmpty) (l := splitOnChar '\n' (normCRLF text))
  unfold parseCSV
  rcases hsplit : (splitOnChar '\n' (normCRLF text)).dropWhile
      (fun l => (jsTrim l).isEmpty) with _ | ⟨headerLine, dataLines⟩ <;>
    simp only [hsplit]
  · simp
  · have hhl : '\n' ∉ headerLine :=
      hline headerLine (hdrop.subset (hsplit ▸ List.mem_cons_self _ _))
    have hheaders : ∀ h ∈ (parseLine headerLine).map jsTrim, '\n' ∉ h := by
      intro h hh
      rcases List.mem_map.mp hh with ⟨f, hf, rfl⟩
      intro hmem
      exact hhl (parseLine_chars headerLine f hf '\n' (jsTrim_chars f '\n' hmem))
    constructor
    · simpa using hheaders
    · intro row hrow kv hkv
      simp only [List.mem_map] at hrow
      rcases hrow with ⟨l, hl, rfl⟩
      have hldata : '\n' ∉ l := by
        have h1 : l ∈ dataLines := List.mem_of_mem_filter hl
        exact hline l (hdrop.subset (hsplit ▸ List.mem_cons_of_mem _ h1))
      have hcells : ∀ part ∈ parseLine l, '\n' ∉ part := by
        intro part hp hmem
        exact hldata (parseLine_chars l part hp '\n' hmem)
      -- membership in the constructed object
      have hobj : ∀ kv2 ∈ mkObj ((parseLine headerLine).map jsTrim) (parseLine l),
          kv2.1 ∈ (parseLine headerLine).map jsTrim ∧
          (kv2.2 ∈ parseLine l ∨ kv2.2 = []) := by
        intro kv2 hkv2
        exact mkObj_mem_spec _ _ kv2 hkv2
      rcases hobj kv hkv with ⟨hk, hv⟩
      refine ⟨hheaders kv.1 hk, ?_⟩
      rcases hv with hv | hv
      · exact hcells kv.2 hv
      · simp [hv]

/-- Witness for C2 at the counterexample input and its concrete members. -/
theorem C2_witness :
    '\n' ∉ "a".toList ∧ '\n' ∉ "y,b".toList :=
  ⟨(C2_amended "a,\"x\ny\",b".toList).1 "a".toList (by decide),
   (((C2_amended "a,\"x\ny\",b".toList).2
      [("a".toList, "y,b".toList), ("x".toList, [])] (by decide)
      ("a".toList, "y,b".toList) (by decide)).2)⟩

/-! ## C5: which rows are dropped -/

/-- Counterexample to C5: the data line `, ,` — commas and a space only —
has every cell trimming to the empty string, yet it is not dropped: the
parser only drops lines whose entire text trims to empty, and this line's
text contains commas. -/
theorem C5_counterexample :
    (parseCSV "a,b\n, ,".toList).rows =
      [[("a".toList, []), ("b".toList, " ".toList)]] ∧
    (parseCSV "a,b\n, ,".toList).rows ≠ [] ∧
    (∀ row ∈ (parseCSV "a,b\n, ,".toList).rows, ∀ kv ∈ row, jsTrim kv.2 = []) := by
  refine ⟨by decide, by decide, by decide⟩

/-- C5 as amended: a data row is dropped exactly when its whole raw line text
trims to the empty string — a line of commas and blanks is kept (as a row of
empty cells), and any row with a non-blank cell is necessarily kept, since a
non-blank cell character comes from the line text. -/
theorem C5_amended (header data : List Char)
    (hh1 : '\n' ∉ header) (hh2 : '\r' ∉ header)
    (hd1 : '\n' ∉ data) (hd2 : '\r' ∉ data)
    (hhb : jsTrim header ≠ []) :
    (parseCSV (header ++ '\n' :: data)).rows =
      (if jsTrim data = [] then []
       else [mkObj ((parseLine header).map jsTrim) (parseLine data)]) ∧
    ((∃ f ∈ parseLine data, jsTrim f ≠ []) →
      (parseCSV (header ++ '\n' :: data)).rows ≠ []) := by
  have hnocr : '\r' ∉ header ++ '\n' :: data := by
    intro hm
    rcases List.mem_append.mp hm with h | h
    · exact hh2 h
    · rcases List.mem_cons.mp h with h | h
      · exact absurd h (by decide)
      · exact hd2 h
  have hdrop : (splitOnChar '\n' (normCRLF (header ++ '\n' :: data))).dropWhile
      (fun l => (jsTrim l).isEmpty) = header :: [data] := by
    rw [normCRLF_of_no_cr _ hnocr, splitOnChar_append header data hh1,
      splitOnChar_no_sep '\n' data hd1]
    apply List.dropWhile_cons_of_neg
    simp [hhb]
  have hrows : (parseCSV (header ++ '\n' :: data)).rows =
      (if jsTrim data = [] then []
       else [mkObj ((parseLine header).map jsTrim) (parseLine data)]) := by
    unfold parseCSV
    simp only [hdrop]
    by_cases hcase : jsTrim data = []
    · have h2 : (jsTrim data).isEmpty = true := by simp [hcase]
      have hfilter : ([data].filter (fun l => !l.isEmpty && !(jsTrim l).isEmpty)) = [] := by
        simp [List.filter, h2]
      simp [hfilter, hcase]
    · have hne : ¬ data = [] := by
        intro h
        rw [h] at hcase
        exact hcase rfl
      have h1 : data.isEmpty = false := by simp [hne]
      have h2 : (jsTrim data).isEmpty = false := by simp [hcase]
      have hfilter : ([data].filter (fun l => !l.isEmpty && !(jsTrim l).isEmpty)) = [data] := by
        simp [List.filter, h1, h2]
      simp [hfilter, hcase]
  refine ⟨hrows, ?_⟩
  rintro ⟨f, hf, hfne⟩
  have hexists : ∃ c ∈ f, jsWhitespace c = false := by
    by_contra hall
    refine hfne ((jsTrim_eq_nil_iff f).mpr ?_)
    intro c hc
    rcases h2 : jsWhitespace c with _ | _
    · exact absurd ⟨c, hc, h2⟩ hall
    · rfl
  obtain ⟨c, hc, hcw⟩ := hexists
  have hcd : c ∈ data := parseLine_chars data f hf c hc
  have htrim : ¬ jsTrim data = [] := by
    intro h0
    have := (jsTrim_eq_nil_iff data).mp h0 c hcd
    simp [hcw] at this
  rw [hrows, if_neg htrim]
  simp

/-- Witness for C5 at a concrete two-line CSV with a kept data row. -/
theorem C5_witness :
    (parseCSV ("a,b".toList ++ '\n' :: "1,2".toList)).rows =
      [[("a".toList, "1".toList), ("b".toList, "2".toList)]] :=
  ((C5_amended "a,b".toList "1,2".toList (by decide) (by decide) (by decide)
      (by decide) (by decide)).1).trans (by decide)

/-! ## C7: the byte-order mark -/

theorem normCRLF_cons_ne (c : Char) (l : List Char) (h : ¬ c = '\r') :
    normCRLF (c :: l) = c :: normCRLF l := by
  cases l <;> simp [normCRLF, h]

theorem parseLine_cons_plain (c : Char) (l : List Char) (h1 : ¬ c = ',') (h2 : ¬ c = '"') :
    parseLine (c :: l) = (c :: (parseLine l).headD []) :: (parseLine l).tail := by
  rcases l with _ | ⟨d, rest⟩
  · simp [parseLine, parseLineAux, h1, h2]
  · show parseLineAux false [] (c :: d :: rest) = _
    rw [show parseLineAux false [] (c :: d :: rest) =
        parseLineAux false ([] ++ [c]) (d :: rest) by simp [parseLineAux, h1, h2]]
    rw [show ([] : List Char) ++ [c] = [c] ++ [] from by simp]
    rw [parseLineAux_prepend false [] (d :: rest) [c]]
    rfl

/-- Every character of a header or cell other than the normalised newline
comes from the input text. -/
theorem parseCSV_chars (text : List Char) (c : Char) (hc : ¬ c = '\n') :
    (∀ h ∈ (parseCSV text).headers, c ∈ h → c ∈ text) ∧
    (∀ row ∈ (parseCSV text).rows, ∀ kv ∈ row,
      (c ∈ kv.1 → c ∈ text) ∧ (c ∈ kv.2 → c ∈ text)) := by
  have hline : ∀ l ∈ splitOnChar '\n' (normCRLF text), ∀ a ∈ l, a ∈ normCRLF text :=
    fun l hl => (splitOnChar_mem_spec '\n' (normCRLF text) l hl).2
  have hfromtext : ∀ l ∈ splitOnChar '\n' (normCRLF text), c ∈ l → c ∈ text := by
    intro l hl hcl
    rcases normCRLF_chars text c (hline l hl c hcl) with h | h
    · exact h
    · exact absurd h hc
  have hdrop := List.dropWhile_sublist
    (fun l => (jsTrim l).isEmpty) (l := splitOnChar '\n' (normCRLF text))
  unfold parseCSV
  rcases hsplit : (splitOnChar '\n' (normCRLF text)).dropWhile
      (fun l => (jsTrim l).isEmpty) with _ | ⟨headerLine, dataLines⟩ <;>
    simp only [hsplit]
  · simp
  · have hhl : c ∈ headerLine → c ∈ text :=
      hfromtext headerLine (hdrop.subset (hsplit ▸ List.mem_cons_self _ _))
    have hheaders : ∀ h ∈ (parseLine headerLine).map jsTrim, c ∈ h → c ∈ text := by
      intro h hh hch
      rcases List.mem_map.mp hh with ⟨f, hf, rfl⟩
      exact hhl (parseLine_chars headerLine f hf c (jsTrim_chars f c hch))
    constructor
    · simpa using hheaders
    · intro row hrow kv hkv
      simp only [List.mem_map] at hrow
      rcases hrow with ⟨l, hl, rfl⟩
      have hldata : c ∈ l → c ∈ text := by
        have h1 : l ∈ dataLines := List.mem_of_mem_filter hl
        exact hfromtext l (hdrop.subset (hsplit ▸ List.mem_cons_of_mem _ h1))
      rcases mkObj_mem_spec _ _ kv hkv with ⟨hk, hv⟩
      refine ⟨hheaders kv.1 hk, ?_⟩
      intro hcv
      rcases hv with hv | hv
      · exact hldata (parseLine_chars l kv.2 hv c hcv)
      · rw [hv] at hcv
        simp at hcv

/-- C7: a leading byte-order mark is invisible to the parser — parsing
`U+FEFF :: t` gives exactly the headers and rows of parsing `t` (the header
trim removes the mark), and when `t` itself contains no U+FEFF the mark
appears in no header name and no cell value. -/
theorem C7_bom_stripped (t : List Char) :
    parseCSV ('\uFEFF' :: t) = parseCSV t ∧
    ('\uFEFF' ∉ t →
      (∀ h ∈ (parseCSV ('\uFEFF' :: t)).headers, '\uFEFF' ∉ h) ∧
      (∀ row ∈ (parseCSV ('\uFEFF' :: t)).rows, ∀ kv ∈ row,
        '\uFEFF' ∉ kv.1 ∧ '\uFEFF' ∉ kv.2)) := by
  have hws : jsWhitespace '\uFEFF' = true := by decide
  have heq : parseCSV ('\uFEFF' :: t) = parseCSV t := by
    obtain ⟨f, fs, hsp⟩ : ∃ f fs, splitOnChar '\n' (normCRLF t) = f :: fs := by
      rcases h : splitOnChar '\n' (normCRLF t) with _ | ⟨f, fs⟩
      · exact absurd h (splitOnChar_ne_nil _ _)
      · exact ⟨f, fs, rfl⟩
    have hsp2 : splitOnChar '\n' (normCRLF ('\uFEFF' :: t)) = ('\uFEFF' :: f) :: fs := by
      rw [normCRLF_cons_ne _ _ (by decide)]
      exact splitOnChar_cons_ne '\n' '\uFEFF' _ f fs (by decide) hsp
    have htrimeq : jsTrim ('\uFEFF' :: f) = jsTrim f := jsTrim_cons_ws _ _ hws
    unfold parseCSV
    rw [hsp, hsp2]
    dsimp only
    by_cases hb : (jsTrim f).isEmpty
    · rw [List.dropWhile_cons_of_pos (by simpa [htrimeq] using hb),
          List.dropWhile_cons_of_pos (by simpa using hb)]
    · rw [List.dropWhile_cons_of_neg (by simpa [htrimeq] using hb),
          List.dropWhile_cons_of_neg (by simpa using hb)]
      obtain ⟨g, gs, hpl⟩ : ∃ g gs, parseLine f = g :: gs := by
        rcases h : parseLine f with _ | ⟨g, gs⟩
        · exact absurd h (parseLineAux_ne_nil false [] f)
        · exact ⟨g, gs, rfl⟩
      have hplf : parseLine ('\uFEFF' :: f) = ('\uFEFF' :: g) :: gs := by
        rw [parseLine_cons_plain _ _ (by decide) (by decide), hpl]
        rfl
      simp only [hplf, hpl, List.map_cons]
      rw [jsTrim_cons_ws _ _ hws]
  refine ⟨heq, ?_⟩
  intro hbom
  rw [heq]
  have hchars := parseCSV_chars t '\uFEFF' (by decide)
  constructor
  · intro h hh hmem
    exact hbom (hchars.1 h hh hmem)
  · intro row hrow kv hkv
    exact ⟨fun hmem => hbom ((hchars.2 row hrow kv hkv).1 hmem),
           fun hmem => hbom ((hchars.2 row hrow kv hkv).2 hmem)⟩

/-- Witness for C7 at a concrete CSV and its concrete members. -/
theorem C7_witness :
    parseCSV ('\uFEFF' :: "product,sales\nA,1".toList) =
      parseCSV "product,sales\nA,1".toList ∧
    '\uFEFF' ∉ "product".toList :=
  ⟨(C7_bom_stripped "product,sales\nA,1".toList).1,
   ((C7_bom_stripped "product,sales\nA,1".toList).2 (by decide)).1
      "product".toList (by decide)⟩

/-! ## C3/C10: how duplicate and aliased headers resolve -/

theorem option_orElse_none {α : Type} (o : Option α) : (o <|> none) = o := by
  cases o <;> rfl

theorem lookupObj_foldl_objInsert {α : Type} (l : List (List Char × α))
    (m : List (List Char × α)) (key : List Char) :
    lookupObj (l.foldl (fun o p => objInsert o p.1 p.2) m) key =
      ((lastMatch? l key) <|> lookupObj m key) := by
  induction l generalizing m with
  | nil => simp [lastMatch?]
  | cons p rest ih =>
    obtain ⟨k, v⟩ := p
    rw [List.foldl_cons, ih (objInsert m k v), lookupObj_objInsert, lastMatch?]
    rcases lastMatch? rest key with _ | x
    · by_cases hk : k = key <;> simp [hk]
    · simp

theorem lookupObj_buildLowerMap (row : Obj) (key : List Char) :
    lookupObj (buildLowerMap row) key =
      lastMatch? (row.map (fun kv => (lowerStr kv.1, kv.2))) key := by
  unfold buildLowerMap
  rw [show (row.foldl (fun m kv => objInsert m (lowerStr kv.1) kv.2) []) =
      ((row.map (fun kv => (lowerStr kv.1, kv.2))).foldl
        (fun o p => objInsert o p.1 p.2) []) from by rw [List.foldl_map]]
  rw [lookupObj_foldl_objInsert]
  simp [lookupObj, option_orElse_none]

theorem mkObjAux_eq_foldl (hs : List (List Char)) :
    ∀ (cs : List (List Char)) (obj : Obj),
      mkObjAux obj hs cs = (objOf hs cs).foldl (fun o p => objInsert o p.1 p.2) obj := by
  induction hs with
  | nil => intro cs obj; cases cs <;> rfl
  | cons h hs ih =>
    intro cs obj
    rcases cs with _ | ⟨c, cs⟩
    · rw [mkObjAux, objOf, List.foldl_cons, ih []]
    · rw [mkObjAux, objOf, List.foldl_cons, ih cs]

theorem lookupObj_mkObj (hdrs cells : List (List Char)) (key : List Char) :
    lookupObj (mkObj hdrs cells) key = lastMatch? (objOf hdrs cells) key := by
  unfold mkObj
  rw [mkObjAux_eq_foldl, lookupObj_foldl_objInsert]
  simp [lookupObj, option_orElse_none]

theorem objInsert_map_fst {α : Type} (m : List (List Char × α)) (k : List Char) (v : α) :
    (objInsert m k v).map Prod.fst = addKey (m.map Prod.fst) k := by
  induction m with
  | nil => simp [objInsert, addKey]
  | cons kv rest ih =>
    obtain ⟨k0, v0⟩ := kv
    by_cases h : k0 = k
    · subst h
      simp only [objInsert, List.map_cons, addKey, if_true]
      rw [if_pos (List.mem_cons_self _ _)]
    · simp only [objInsert, if_neg h, List.map_cons, ih, addKey]
      have hne : ¬ k = k0 := fun he => h he.symm
      by_cases hmem : k ∈ rest.map Prod.fst
      · rw [if_pos hmem, if_pos (List.mem_cons_of_mem _ hmem)]
      · rw [if_neg hmem, if_neg (by
          intro hc
          rcases List.mem_cons.mp hc with hc | hc
          · exact hne hc
          · exact hmem hc)]
        rfl

theorem mkObjAux_map_fst (hs : List (List Char)) :
    ∀ (cs : List (List Char)) (obj : Obj),
      (mkObjAux obj hs cs).map Prod.fst = hs.foldl addKey (obj.map Prod.fst) := by
  induction hs with
  | nil => intro cs obj; cases cs <;> rfl
  | cons h hs ih =>
    intro cs obj
    rcases cs with _ | ⟨c, cs⟩
    · rw [mkObjAux, ih [], objInsert_map_fst, List.foldl_cons]
    · rw [mkObjAux, ih cs, objInsert_map_fst, List.foldl_cons]

theorem mkObj_map_fst (hdrs cells : List (List Char)) :
    (mkObj hdrs cells).map Prod.fst = firstOccurrences hdrs := by
  unfold mkObj firstOccurrences
  rw [mkObjAux_map_fst]
  rfl

theorem foldl_addKey_nodup (hs : List (List Char)) :
    ∀ ks : List (List Char), ks.Nodup → (hs.foldl addKey ks).Nodup := by
  induction hs with
  | nil => intro ks h; exact h
  | cons h hs ih =>
    intro ks hnd
    rw [List.foldl_cons]
    refine ih _ ?_
    unfold addKey
    by_cases hmem : h ∈ ks
    · simp [hmem, hnd]
    · simp [hmem, List.nodup_append, hnd]

theorem firstOccurrences_nodup (hdrs : List (List Char)) :
    (firstOccurrences hdrs).Nodup :=
  foldl_addKey_nodup hdrs [] List.nodup_nil

theorem lastMatch?_eq_none {α : Type} (l : List (List Char × α)) (key : List Char)
    (h : key ∉ l.map Prod.fst) : lastMatch? l key = none := by
  induction l with
  | nil => rfl
  | cons kv rest ih =>
    rw [List.map_cons] at h
    have h1 : key ∉ rest.map Prod.fst := fun hm => h (List.mem_cons_of_mem _ hm)
    have h2 : ¬ kv.1 = key := fun he => h (he ▸ List.mem_cons_self _ _)
    simp only [lastMatch?, ih h1, if_neg h2]
    rfl

theorem lastSuch_mem {α : Type} (p : α → Bool) (l : List α) (x : α)
    (h : lastSuch p l = some x) : x ∈ l ∧ p x = true := by
  induction l with
  | nil => simp [lastSuch] at h
  | cons y ys ih =>
    rw [lastSuch] at h
    rcases hls : lastSuch p ys with _ | z
    · rw [hls] at h
      by_cases hp : p y = true
      · rw [if_pos hp] at h
        simp at h
        exact ⟨by simp [h.symm], h ▸ hp⟩
      · rw [if_neg hp] at h
        simp at h
    · rw [hls] at h
      simp at h
      rcases ih (hls.trans (congrArg some h)) with ⟨hmem, hpx⟩
      exact ⟨List.mem_cons_of_mem _ hmem, hpx⟩

theorem lookupObj_of_mem_fst {α : Type} (m : List (List Char × α)) (key : List Char)
    (h : key ∈ m.map Prod.fst) : ∃ v, lookupObj m key = some v := by
  induction m with
  | nil => simp at h
  | cons kv rest ih =>
    by_cases hk : kv.1 = key
    · exact ⟨kv.2, by simp only [lookupObj, if_pos hk]⟩
    · rw [List.map_cons] at h
      have h1 : key ∈ rest.map Prod.fst := by
        rcases List.mem_cons.mp h with h2 | h2
        · exact absurd h2.symm hk
        · exact h2
      obtain ⟨w, hw⟩ := ih h1
      exact ⟨w, by simp only [lookupObj, if_neg hk, hw]⟩

theorem lastMatch?_map_lower {α : Type} (m : List (List Char × α)) (key : List Char)
    (hnd : (m.map Prod.fst).Nodup) :
    lastMatch? (m.map (fun kv => (lowerStr kv.1, kv.2))) key =
      (lastSuch (fun k => lowerStr k = key) (m.map Prod.fst)).bind
        (fun k => lookupObj m k) := by
  induction m with
  | nil => simp [lastMatch?, lastSuch]
  | cons kv rest ih =>
    obtain ⟨k, v⟩ := kv
    simp only [List.map_cons] at hnd ⊢
    have hknotin : k ∉ rest.map Prod.fst := (List.nodup_cons.mp hnd).1
    have hnd' : (rest.map Prod.fst).Nodup := (List.nodup_cons.mp hnd).2
    rw [lastMatch?, lastSuch, ih hnd']
    rcases hls : lastSuch (fun k2 => lowerStr k2 = key) (rest.map Prod.fst) with _ | k3
    · by_cases hk : lowerStr k = key
      · simp [hk, lookupObj]
      · simp [hk]
    · have hk3 := lastSuch_mem _ _ _ hls
      have hk3ne : ¬ k = k3 := fun he => hknotin (he ▸ hk3.1)
      obtain ⟨v3, hv3⟩ := lookupObj_of_mem_fst rest k3 hk3.1
      simp [hv3, lookupObj, hk3ne]

/-- The central characterisation: what the normaliser's lowercased map holds
for a name is `resolvedValue` — among spellings lowering to the name, the one
whose first column occurrence is latest, with that spelling's rightmost
column value. -/
theorem lookup_buildLowerMap_mkObj (hdrs cells : List (List Char)) (key : List Char) :
    lookupObj (buildLowerMap (mkObj hdrs cells)) key = resolvedValue hdrs cells key := by
  rw [lookupObj_buildLowerMap]
  have hnd : ((mkObj hdrs cells).map Prod.fst).Nodup := by
    rw [mkObj_map_fst]
    exact firstOccurrences_nodup hdrs
  rw [lastMatch?_map_lower _ _ hnd, mkObj_map_fst]
  unfold resolvedValue
  rcases lastSuch (fun h => lowerStr h = key) (firstOccurrences hdrs) with _ | k
  · rfl
  · simp only [Option.some_bind]
    exact lookupObj_mkObj hdrs cells k

theorem lastSuch_eq_none {α : Type} (p : α → Bool) (l : List α)
    (h : ∀ x ∈ l, p x = false) : lastSuch p l = none := by
  induction l with
  | nil => rfl
  | cons y ys ih =>
    rw [lastSuch, ih (fun x hx => h x (List.mem_cons_of_mem _ hx)),
      if_neg (by simp [h y (List.mem_cons_self _ _)])]
    rfl

theorem lastSuch_eq_find? (hdrs : List (List Char)) (a : List Char)
    (hnd : (hdrs.map lowerStr).Nodup) :
    lastSuch (fun h => lowerStr h = a) hdrs = hdrs.find? (fun h => lowerStr h = a) := by
  induction hdrs with
  | nil => rfl
  | cons h hs ih =>
    rw [List.map_cons, List.nodup_cons] at hnd
    by_cases hp : lowerStr h = a
    · have hnone : lastSuch (fun h2 => lowerStr h2 = a) hs = none := by
        apply lastSuch_eq_none
        intro x hx
        simp only [decide_eq_false_iff_not]
        intro hxa
        exact hnd.1 (by rw [hp, ← hxa]; exact List.mem_map_of_mem lowerStr hx)
      rw [lastSuch, hnone, List.find?, if_pos (by simp [hp]),
        show (decide (lowerStr h = a)) = true by simp [hp]]
      rfl
    · rw [lastSuch, ih hnd.2, if_neg (by simp [hp]), option_orElse_none, List.find?]
      rw [show (decide (lowerStr h = a)) = false by simp [hp]]

theorem firstOccurrences_of_nodup (hdrs : List (List Char)) (hnd : hdrs.Nodup) :
    firstOccurrences hdrs = hdrs := by
  have key : ∀ (l : List (List Char)) (ks : List (List Char)), l.Nodup →
      (∀ x ∈ l, x ∉ ks) → l.foldl addKey ks = ks ++ l := by
    intro l
    induction l with
    | nil => intro ks _ _; simp
    | cons h hs ih =>
      intro ks hnd2 hdisj
      rw [List.nodup_cons] at hnd2
      rw [List.foldl_cons]
      have haddk : addKey ks h = ks ++ [h] := by
        unfold addKey
        rw [if_neg (hdisj h (List.mem_cons_self _ _))]
      rw [haddk, ih (ks ++ [h]) hnd2.2 ?_]
      · simp
      · intro x hx hmem
        rcases List.mem_append.mp hmem with hm | hm
        · exact hdisj x (List.mem_cons_of_mem _ hx) hm
        · rw [List.mem_singleton] at hm
          exact hnd2.1 (hm ▸ hx)
  unfold firstOccurrences
  rw [key hdrs [] hnd (by simp)]
  rfl

theorem objOf_cons (h : List Char) (hs cells : List (List Char)) :
    objOf (h :: hs) cells = (h, cells.headD []) :: objOf hs cells.tail := by
  cases cells <;> rfl

theorem objOf_map_fst (hdrs : List (List Char)) :
    ∀ cells, (objOf hdrs cells).map Prod.fst = hdrs := by
  induction hdrs with
  | nil => intro cells; cases cells <;> rfl
  | cons h hs ih =>
    intro cells
    rw [objOf_cons, List.map_cons, ih cells.tail]

theorem find?_bind_lastMatch (hdrs : List (List Char)) (a : List Char)
    (hnd : hdrs.Nodup) :
    ∀ cells, (hdrs.find? (fun h => lowerStr h = a)).bind
        (fun k => lastMatch? (objOf hdrs cells) k) =
      aliasCell hdrs cells a := by
  induction hdrs with
  | nil => intro cells; rfl
  | cons h hs ih =>
    intro cells
    rw [List.nodup_cons] at hnd
    by_cases hp : lowerStr h = a
    · rw [List.find?_cons_of_pos _ (by simp [hp])]
      have hnone : lastMatch? (objOf hs cells.tail) h = none := by
        apply lastMatch?_eq_none
        rw [objOf_map_fst]
        exact hnd.1
      rw [Option.some_bind, objOf_cons]
      simp only [lastMatch?, hnone]
      unfold aliasCell
      rw [objOf_cons, List.find?_cons_of_pos _ (by simp [hp])]
      simp
    · rw [List.find?_cons_of_neg _ (by simp [hp])]
      have hRHS : aliasCell (h :: hs) cells a = aliasCell hs cells.tail a := by
        unfold aliasCell
        rw [objOf_cons, List.find?_cons_of_neg _ (by simp [hp])]
      rw [hRHS, ← ih hnd.2 cells.tail]
      rcases hf : hs.find? (fun h2 => lowerStr h2 = a) with _ | k
      · rfl
      · rw [Option.some_bind, Option.some_bind, objOf_cons]
        have hkmem : k ∈ hs := List.mem_of_find?_eq_some hf
        have hne : ¬ h = k := fun he => hnd.1 (he ▸ hkmem)
        simp only [lastMatch?]
        rw [if_neg hne, option_orElse_none]

theorem resolvedValue_of_nodup (hdrs cells : List (List Char)) (a : List Char)
    (hnd : (hdrs.map lowerStr).Nodup) :
    resolvedValue hdrs cells a = aliasCell hdrs cells a := by
  unfold resolvedValue
  rw [firstOccurrences_of_nodup hdrs (List.Nodup.of_map lowerStr hnd),
    lastSuch_eq_find? hdrs a hnd,
    find?_bind_lastMatch hdrs a (List.Nodup.of_map lowerStr hnd) cells]

/-! ## The claim theorems C10 and C3 -/

/-- Counterexample to C10: with the headers `product, Product, product` and
values `a, b, c`, the value resolved for `product` is `b` — from the
`Product` column — not `c` from the rightmost `product` column: the exact
duplicate collapses into the first `product` entry (keeping its early
position but taking value `c`), and the later-positioned `Product` entry
then overwrites it in the lowercased map. -/
theorem C10_counterexample :
    (coerceRow (mkObj ["product".toList, "Product".toList, "product".toList]
      ["a".toList, "b".toList, "c".toList])).product = "b".toList ∧
    ¬ (coerceRow (mkObj ["product".toList, "Product".toList, "product".toList]
      ["a".toList, "b".toList, "c".toList])).product = "c".toList := by
  refine ⟨by decide, by decide⟩

/-- C10 as amended: the value the normaliser takes for a (lowercased) name is
`resolvedValue`: among columns whose headers are spelled identically, the
rightmost overwrites the earlier ones; among different spellings of the same
name, the spelling whose first column occurrence is latest wins.  When all
same-name columns share one spelling this is exactly "the later column wins";
interleaved case-variant spellings can beat a later column, as the
counterexample shows.  The record fields are these resolved values fed
through the `||`/`??` alias chains. -/
theorem C10_amended (hdrs cells : List (List Char)) :
    (∀ key, lookupObj (buildLowerMap (mkObj hdrs cells)) key =
      resolvedValue hdrs cells key) ∧
    coerceRow (mkObj hdrs cells) =
      { product := ((truthyOpt (resolvedValue hdrs cells "product".toList) <|>
          truthyOpt (resolvedValue hdrs cells "item".toList)) <|>
          truthyOpt (resolvedValue hdrs cells "name".toList)).getD "Unknown".toList,
        region := (truthyOpt (resolvedValue hdrs cells "region".toList) <|>
          truthyOpt (resolvedValue hdrs cells "area".toList)).getD [],
        sales := salesQ (((resolvedValue hdrs cells "sales".toList <|>
          resolvedValue hdrs cells "amount".toList) <|>
          resolvedValue hdrs cells "total".toList).getD "0".toList) } := by
  refine ⟨lookup_buildLowerMap_mkObj hdrs cells, ?_⟩
  unfold coerceRow rawSalesOf
  simp only [lookup_buildLowerMap_mkObj]

/-- Counterexample to C3: with headers `product, item` and cells `"", Gadget`,
the first matching alias is `product`, whose value is the empty string — but
the normaliser's `||` chain skips the empty cell and resolves
`product := "Gadget"` from the later `item` alias. -/
theorem C3_counterexample :
    (coerceRow (mkObj ["product".toList, "item".toList]
      [[], "Gadget".toList])).product = "Gadget".toList ∧
    ¬ (coerceRow (mkObj ["product".toList, "item".toList]
      [[], "Gadget".toList])).product = ([] : List Char) := by
  refine ⟨by decide, by decide⟩

/-- C3 as amended: with case-insensitively distinct headers, `product` and
`region` resolve to the first alias (in the fixed priority order, matched
case-insensitively) whose cell is non-empty — an empty cell falls through —
defaulting to `Unknown` / `""`; `sales` resolves to the first alias whose
header is present, even when its cell is empty, defaulting to `"0"`, and the
cell is then coerced numerically.  The claim's concrete example
`[Name, Area, Total] / [Widget, East, 42]` holds as stated. -/
theorem C3_alias_resolution (hdrs cells : List (List Char))
    (hnd : (hdrs.map lowerStr).Nodup) :
    coerceRow (mkObj hdrs cells) =
      { product := specProduct hdrs cells,
        region := specRegion hdrs cells,
        sales := salesQ (specRawSales hdrs cells) } := by
  have hkey : ∀ a, lookupObj (buildLowerMap (mkObj hdrs cells)) a =
      aliasCell hdrs cells a := by
    intro a
    rw [lookup_buildLowerMap_mkObj, resolvedValue_of_nodup hdrs cells a hnd]
  unfold coerceRow rawSalesOf specProduct specRegion specRawSales
  simp only [hkey]

/-- Witness for C3: the claim’s own example row normalises as stated. -/
theorem C3_witness :
    (["Name".toList, "Area".toList, "Total".toList].map lowerStr).Nodup ∧
    coerceRow (mkObj ["Name".toList, "Area".toList, "Total".toList]
        ["Widget".toList, "East".toList, "42".toList]) =
      { product := "Widget".toList, region := "East".toList, sales := 42 } := by
  have hmain := C3_alias_resolution ["Name".toList, "Area".toList, "Total".toList]
    ["Widget".toList, "East".toList, "42".toList] (by decide)
  refine ⟨by decide, hmain.trans ?_⟩
  have hp : specProduct ["Name".toList, "Area".toList, "Total".toList]
      ["Widget".toList, "East".toList, "42".toList] = "Widget".toList := by decide
  have hr : specRegion ["Name".toList, "Area".toList, "Total".toList]
      ["Widget".toList, "East".toList, "42".toList] = "East".toList := by decide
  have hs0 : specRawSales ["Name".toList, "Area".toList, "Total".toList]
      ["Widget".toList, "East".toList, "42".toList] = "42".toList := by decide
  rw [hp, hr, hs0]
  have hq : salesQ "42".toList = (42 : ℚ) := by
    have h1 : salesJS "42".toList =
        JSNum.fin ((digitsToNat "42".toList : ℚ) * parseExpFactor ([] : List Char)) := rfl
    simp only [salesQ, h1]
    rw [show digitsToNat "42".toList = 42 by decide]
    norm_num [parseExpFactor]
  rw [hq]

/-! ## Evaluating the binary64 rounding -/

theorem rne_intCast (n : ℤ) : rne (n : ℚ) = n := by
  unfold rne
  rw [Int.floor_intCast]
  norm_num

theorem rne_eq_of_near (x : ℚ) (n : ℤ) (h1 : x - n < 1 / 2) (h2 : -(1 / 2) < x - n) :
    rne x = n := by
  unfold rne
  rcases le_or_lt (n : ℚ) x with hcase | hcase
  · have hfloor : ⌊x⌋ = n := by
      rw [Int.floor_eq_iff]
      constructor
      · exact hcase
      · linarith
    rw [hfloor, if_pos (by linarith)]
  · have hfloor : ⌊x⌋ = n - 1 := by
      rw [Int.floor_eq_iff]
      constructor
      · push_cast
        linarith
      · push_cast
        linarith
    rw [hfloor]
    rw [if_neg (by push_cast; linarith), if_pos (by push_cast; linarith)]
    omega

theorem sub_half_le_rne (x : ℚ) : x - 1 / 2 ≤ ((rne x : ℤ) : ℚ) := by
  unfold rne
  dsimp only
  have hr0 : (⌊x⌋ : ℚ) ≤ x := Int.floor_le x
  have hr1 : x < ⌊x⌋ + 1 := Int.lt_floor_add_one x
  split_ifs with h1 h2 h3 <;> push_cast <;> linarith

theorem log2_eq (q : ℚ) (e : ℤ) (h0 : 0 < q)
    (h1 : (2 : ℚ) ^ e ≤ q) (h2 : q < (2 : ℚ) ^ (e + 1)) : Int.log 2 q = e := by
  have hb : 1 < (2 : ℕ) := by norm_num
  have hcast : ((2 : ℕ) : ℚ) = (2 : ℚ) := by norm_num
  have hle : e ≤ Int.log 2 q := by
    rw [← Int.zpow_le_iff_le_log hb h0, hcast]
    exact h1
  have hlt : ¬ (e + 1 ≤ Int.log 2 q) := by
    rw [← Int.zpow_le_iff_le_log hb h0, hcast]
    exact not_le.mpr h2
  omega

theorem roundDouble_eval (q : ℚ) (e m : ℤ) (h0 : 0 < q)
    (hlog : Int.log 2 q = e) (he : (-1074 : ℤ) ≤ e - 52)
    (hm : rne (q * (2 : ℚ) ^ (-(e - 52))) = m)
    (hnoflow : |(m : ℚ)| * (2 : ℚ) ^ (e - 52) < (2 : ℚ) ^ (1024 : ℤ)) :
    roundDouble q = JSNum.fin ((m : ℚ) * (2 : ℚ) ^ (e - 52)) := by
  unfold roundDouble
  rw [if_neg h0.ne']
  dsimp only
  rw [abs_of_pos h0, hlog, max_eq_right he, hm, if_neg (not_le.mpr hnoflow)]

theorem roundDouble_eval_posInf (q : ℚ) (e : ℤ) (h0 : 0 < q)
    (hlog : Int.log 2 q = e) (he : (-1074 : ℤ) ≤ e - 52)
    (hflow : (2 : ℚ) ^ (1024 : ℤ) ≤
      |((rne (q * (2 : ℚ) ^ (-(e - 52))) : ℤ) : ℚ)| * (2 : ℚ) ^ (e - 52)) :
    roundDouble q = JSNum.posInf := by
  unfold roundDouble
  rw [if_neg h0.ne']
  dsimp only
  rw [abs_of_pos h0, hlog, max_eq_right he, if_pos hflow, if_pos h0]

theorem roundDouble_zero : roundDouble 0 = JSNum.fin 0 := by
  simp [roundDouble]

/-- `1` is exactly representable. -/
theorem roundDouble_one : roundDouble 1 = JSNum.fin 1 := by
  have h := roundDouble_eval 1 0 4503599627370496 (by norm_num)
    (log2_eq 1 0 (by norm_num) (by norm_num) (by norm_num))
    (by norm_num)
    (by rw [show (1 : ℚ) * (2 : ℚ) ^ (-((0 : ℤ) - 52)) = ((4503599627370496 : ℤ) : ℚ) by
          push_cast; norm_num]
        exact rne_intCast _)
    (by rw [abs_of_pos (by norm_num)]; push_cast; norm_num)
  rw [h, show ((4503599627370496 : ℤ) : ℚ) * (2 : ℚ) ^ ((0 : ℤ) - 52) = 1 by
    push_cast; norm_num]

/-- `1e20 = 5^20 · 2^20` is exactly representable (its mantissa is 47 bits).
The value is written as a numeral: a `(10 : ℚ) ^ 20` power does not reduce in
the kernel. -/
theorem roundDouble_1e20 :
    roundDouble (100000000000000000000 : ℚ) = JSNum.fin (100000000000000000000 : ℚ) := by
  have h := roundDouble_eval (100000000000000000000 : ℚ) 66 6103515625000000 (by norm_num)
    (log2_eq _ 66 (by norm_num) (by norm_num) (by norm_num))
    (by norm_num)
    (by rw [show (100000000000000000000 : ℚ) * (2 : ℚ) ^ (-((66 : ℤ) - 52)) = ((6103515625000000 : ℤ) : ℚ) by
          push_cast; norm_num]
        exact rne_intCast _)
    (by rw [abs_of_pos (by norm_num)]; push_cast; norm_num)
  rw [h, show ((6103515625000000 : ℤ) : ℚ) * (2 : ℚ) ^ ((66 : ℤ) - 52) = (100000000000000000000 : ℚ) by
    push_cast; norm_num]

/-- `1e20 + 1` is within half an ulp of `1e20`, so the addition rounds back
down: the `+ 1` is absorbed. -/
theorem roundDouble_1e20_add_one :
    roundDouble ((100000000000000000000 : ℚ) + 1) = JSNum.fin (100000000000000000000 : ℚ) := by
  have h := roundDouble_eval ((100000000000000000000 : ℚ) + 1) 66 6103515625000000 (by norm_num)
    (log2_eq _ 66 (by norm_num) (by norm_num) (by norm_num))
    (by norm_num)
    (rne_eq_of_near _ 6103515625000000 (by push_cast; norm_num) (by push_cast; norm_num))
    (by rw [abs_of_pos (by norm_num)]; push_cast; norm_num)
  rw [h, show ((6103515625000000 : ℤ) : ℚ) * (2 : ℚ) ^ ((66 : ℤ) - 52) = (100000000000000000000 : ℚ) by
    push_cast; norm_num]

/-- `1e309` exceeds the largest finite double: the rounding overflows to
`+Infinity`. -/
theorem roundDouble_pow309 : roundDouble ((10 : ℚ) ^ 309) = JSNum.posInf := by
  have hm : rne ((10 : ℚ) ^ 309 * (2 : ℚ) ^ (-((1026 : ℤ) - 52))) = 6263026125028040 :=
    rne_eq_of_near _ 6263026125028040 (by push_cast; norm_num) (by push_cast; norm_num)
  exact roundDouble_eval_posInf ((10 : ℚ) ^ 309) 1026 (by norm_num)
    (log2_eq _ 1026 (by norm_num) (by norm_num) (by norm_num))
    (by norm_num)
    (by rw [hm, abs_of_pos (by norm_num)]; push_cast; norm_num)

theorem addDouble_fin (a b : ℚ) :
    addDouble (JSNum.fin a) (JSNum.fin b) = roundDouble (a + b) := rfl

/-! ## The parse of a 310-digit cell -/

theorem foldl_digits_replicate (n : ℕ) :
    ∀ a : ℕ, List.foldl (fun a c => 10 * a + (c.toNat - 48)) a (List.replicate n '0') =
      a * 10 ^ n := by
  induction n with
  | zero => intro a; simp
  | succ n ih =>
    intro a
    rw [List.replicate_succ, List.foldl_cons, ih]
    rw [show '0'.toNat - 48 = 0 from rfl]
    ring

theorem digitsToNat_pow (n : ℕ) :
    digitsToNat ('1' :: List.replicate n '0') = 10 ^ n := by
  unfold digitsToNat
  rw [List.foldl_cons, foldl_digits_replicate n _]
  rw [show 10 * 0 + ('1'.toNat - 48) = 1 from rfl, one_mul]

theorem jsParseFloat_one_replicate309 :
    jsParseFloat ('1' :: List.replicate 309 '0') = JSNum.fin ((10 : ℚ) ^ 309) := by
  have hdigit : ∀ c ∈ ('1' :: List.replicate 309 '0'), Char.isDigit c = true := by
    intro c hc
    rcases List.mem_cons.mp hc with h | h
    · rw [h]; decide
    · rw [List.eq_of_mem_replicate h]; decide
  have hdw : ('1' :: List.replicate 309 '0').dropWhile Char.isDigit = [] :=
    List.dropWhile_eq_nil_iff.mpr hdigit
  have htw : ('1' :: List.replicate 309 '0').takeWhile Char.isDigit =
      '1' :: List.replicate 309 '0' := by
    have h := List.takeWhile_append_dropWhile
      (p := Char.isDigit) (l := '1' :: List.replicate 309 '0')
    rw [hdw, List.append_nil] at h
    exact h
  have hdropws : ('1' :: List.replicate 309 '0').dropWhile jsWhitespace =
      '1' :: List.replicate 309 '0' :=
    List.dropWhile_cons_of_neg (by decide)
  have hsign : splitSign ('1' :: List.replicate 309 '0') =
      (false, '1' :: List.replicate 309 '0') := by
    simp only [splitSign]
    rw [if_neg (by decide), if_neg (by decide)]
  have htake : ¬ ('1' :: List.replicate 309 '0').take 8 = "Infinity".toList := by
    intro h
    rw [List.take_succ_cons] at h
    injection h with h1 _
    exact absurd h1 (by decide)
  have hpu : parseUnsigned ('1' :: List.replicate 309 '0') =
      some ((digitsToNat ('1' :: List.replicate 309 '0') : ℚ), []) := by
    unfold parseUnsigned
    dsimp only
    rw [htw, hdw]
    dsimp only
    rw [if_neg (by rw [List.isEmpty_cons]; decide)]
  unfold jsParseFloat
  dsimp only
  rw [hdropws, hsign]
  dsimp only
  rw [if_neg htake, hpu]
  dsimp only
  rw [digitsToNat_pow]
  rw [show parseExpFactor [] = 1 from rfl, mul_one]
  push_cast
  rfl

/-! ## The rejected-claim theorems: C1 and C6 against IEEE semantics -/

/-- Counterexample to C1: under the program's IEEE double addition, the
records `[{A, North, 1e20}, {B, South, 1}, {A, North, -1e20}]` (all three
sales values reachable from plain digit cells) give an unconverted grand
total of `0` — the `+ 1` is absorbed into `1e20` and then cancelled — while
the per-product subtotals are `A = 0` and `B = 1`, summing to `1`: the
difference is `1`, far beyond the claimed `1e-9` tolerance.  Reordering the
same records changes the grand total from `0` to `1`, so the total is not
independent of row order either. -/
theorem C1_counterexample :
    totalRawD (getFilteredRowsD
      [⟨"A".toList, "North".toList, JSNum.fin (100000000000000000000 : ℚ)⟩,
       ⟨"B".toList, "South".toList, JSNum.fin 1⟩,
       ⟨"A".toList, "North".toList, JSNum.fin (-(100000000000000000000 : ℚ))⟩] "all".toList) =
      JSNum.fin 0 ∧
    sumValuesD (byProductD (getFilteredRowsD
      [⟨"A".toList, "North".toList, JSNum.fin (100000000000000000000 : ℚ)⟩,
       ⟨"B".toList, "South".toList, JSNum.fin 1⟩,
       ⟨"A".toList, "North".toList, JSNum.fin (-(100000000000000000000 : ℚ))⟩] "all".toList)) =
      JSNum.fin 1 ∧
    totalRawD (getFilteredRowsD
      [⟨"A".toList, "North".toList, JSNum.fin (100000000000000000000 : ℚ)⟩,
       ⟨"A".toList, "North".toList, JSNum.fin (-(100000000000000000000 : ℚ))⟩,
       ⟨"B".toList, "South".toList, JSNum.fin 1⟩] "all".toList) =
      JSNum.fin 1 ∧
    ¬ (|(0 : ℚ) - 1| ≤ 1 / 1000000000) := by
  have hall : ∀ rows : List RecordD, getFilteredRowsD rows "all".toList = rows :=
    fun rows => if_pos rfl
  have t3 : ∀ (a b c : RecordD),
      totalRawD [a, b, c] =
        addDouble (addDouble (addDouble (JSNum.fin 0) a.sales) b.sales) c.sales :=
    fun a b c => rfl
  have b3 : ∀ (a b c : RecordD),
      byProductD [a, b, c] =
        byProductStepD (byProductStepD (byProductStepD [] a) b) c :=
    fun a b c => rfl
  have sv2 : ∀ (k1 k2 : List Char) (u v : JSNum),
      sumValuesD [(k1, u), (k2, v)] = addDouble (addDouble (JSNum.fin 0) u) v :=
    fun k1 k2 u v => rfl
  have hjs : ∀ q : ℚ, jsOrZero (JSNum.fin q) = JSNum.fin q := fun q => rfl
  have g1 : ∀ v : JSNum, byProductStepD [] ⟨"A".toList, "North".toList, v⟩ =
      [("A".toList, addDouble (jsOrZero (JSNum.fin 0)) v)] := fun v => rfl
  have g2 : ∀ (w v : JSNum), byProductStepD [("A".toList, w)]
        ⟨"B".toList, "South".toList, v⟩ =
      [("A".toList, w), ("B".toList, addDouble (jsOrZero (JSNum.fin 0)) v)] :=
    fun w v => rfl
  have g3 : ∀ (w u v : JSNum), byProductStepD [("A".toList, w), ("B".toList, u)]
        ⟨"A".toList, "North".toList, v⟩ =
      [("A".toList, addDouble (jsOrZero w) v), ("B".toList, u)] := fun w u v => rfl
  have s1 : addDouble (JSNum.fin 0) (JSNum.fin (100000000000000000000 : ℚ)) =
      JSNum.fin (100000000000000000000 : ℚ) := by
    rw [addDouble_fin, zero_add, roundDouble_1e20]
  have s2 : addDouble (JSNum.fin (100000000000000000000 : ℚ)) (JSNum.fin 1) =
      JSNum.fin (100000000000000000000 : ℚ) := by
    rw [addDouble_fin, roundDouble_1e20_add_one]
  have s3 : addDouble (JSNum.fin (100000000000000000000 : ℚ)) (JSNum.fin (-(100000000000000000000 : ℚ))) =
      JSNum.fin 0 := by
    rw [addDouble_fin, show (100000000000000000000 : ℚ) + -(100000000000000000000 : ℚ) = 0 by ring, roundDouble_zero]
  have s4 : addDouble (JSNum.fin 0) (JSNum.fin 1) = JSNum.fin 1 := by
    rw [addDouble_fin, zero_add, roundDouble_one]
  have s5 : addDouble (JSNum.fin 0) (JSNum.fin 0) = JSNum.fin 0 := by
    rw [addDouble_fin, add_zero, roundDouble_zero]
  refine ⟨?_, ?_, ?_, by norm_num⟩
  · rw [hall, t3, s1, s2, s3]
  · rw [hall, b3, g1, hjs, s1, g2, hjs, s4, g3, hjs, s3, sv2, s5, s4]
  · rw [hall, t3, s1, s3, s4]

/-- C6, the code's divergence from the claim at the failing input: a sales
cell of `1` followed by 309 zeros reaches the record untouched by the alias
chain, survives the character strip, `parseFloat` overflows it to
`+Infinity`, and `|| 0` keeps it (Infinity is truthy) — the sales value is
non-finite and is not `0`, contradicting the claimed coercion policy. -/
theorem C6_overflow_divergence :
    rawSalesOf (buildLowerMap [("sales".toList, '1' :: List.replicate 309 '0')]) =
      '1' :: List.replicate 309 '0' ∧
    salesJSD ('1' :: List.replicate 309 '0') = JSNum.posInf ∧
    ¬ JSNum.posInf = JSNum.fin 0 := by
  refine ⟨rfl, ?_, by simp⟩
  have hfilter : ('1' :: List.replicate 309 '0').filter isNumChar =
      '1' :: List.replicate 309 '0' := by
    apply List.filter_eq_self.mpr
    intro a ha
    rcases List.mem_cons.mp ha with h | h
    · rw [h]; decide
    · rw [List.eq_of_mem_replicate h]; decide
  unfold salesJSD jsParseFloatD
  rw [hfilter, jsParseFloat_one_replicate309]
  dsimp only
  rw [roundDouble_pow309]
  rfl

end SalesApp
